import Mathlib

/-!
Shallow embedding of the Raft consensus core of `src/pkg/raft/src/consensus.rs`
(together with the wire types of `src/pkg/raft/src/protos.rs`).

Conventions of the embedding:
* machine integers (`u64`, `usize`) become `Nat`; the only place where the
  source relies on a concrete machine width is `new_election_timeout`
  (a `u32` draw), which is modelled by a `Nat` parameter together with an
  explicit `r < 2^32` bound in the theorems about it;
* `Instant` and `Duration` become `Nat` (milliseconds); `Instant::duration_since`
  becomes truncating `Nat` subtraction (the host guarantees monotonic time);
* a Rust panic (`panic!`, `assert!`, `.unwrap()` on `None`, `.expect`) is
  modelled by the handler returning `none`; recoverable errors returned as
  `Result::Err` values are modelled by `Except.error`;
* `HashSet<ServerId>` is modelled by a duplicate-free `List Nat`
  (insertion deduplicates, so `length` agrees with the set size);
  `HashMap<ServerId, ServerProgress>` is modelled by an association list;
* the source's recursion `cycle → start_election → cycle → …` is bounded in
  the source only by the actual state; here the mutually recursive trio
  `cycle` / `start_election` / `propose_entry` is embedded as the single
  fuel-indexed function `blockStep`, with theorems quantifying over the fuel;
  running out of fuel is `none`, so every theorem about a `some` result is a
  statement about a real terminating run of the source;
* the host-provided randomness source (`rand::thread_rng` in
  `new_election_timeout`) is modelled by the stream `rand : List Nat` of
  pending `u32` draws carried in the module state (an absent draw defaults
  to `0`).

The modules `log.rs`, `state.rs`, `config_state.rs` and `constraint.rs` are
not part of the sources; their data and behaviour are modelled from the
specification (spec sections 3, 6.1, 6.2), as marked on each definition.
-/

namespace Raft

/- `ServerId`, `Term` and `LogIndex` of `protos.rs` are all `u64`; they are
embedded directly as `Nat` (no type synonyms, so that arithmetic automation
sees through them). -/

/-- From `protos.rs`: membership changes applied one server at a time. -/
inductive ConfigChange
  | AddMember (s : Nat)
  | AddLearner (s : Nat)
  | RemoveServer (s : Nat)
deriving DecidableEq, Repr

/-- From `protos.rs`: payload of a log entry. -/
inductive LogEntryData
  | Noop
  | Config (c : ConfigChange)
  | Command (data : List Nat)
deriving DecidableEq, Repr

/-- From `protos.rs`: a single entry of the replicated log. -/
structure LogEntry where
  index : Nat
  term : Nat
  data : LogEntryData
deriving DecidableEq, Repr

/-- From `protos.rs`: the persistent metadata of a server. -/
structure Metadata where
  current_term : Nat
  voted_for : Option Nat
  commit_index : Nat
deriving DecidableEq, Repr

/-- Insert into a `HashSet` modelled as a duplicate-free list. -/
def listInsert (s : Nat) (l : List Nat) : List Nat :=
  if s ∈ l then l else l ++ [s]

/-- Remove from a `HashSet` modelled as a duplicate-free list. -/
def listErase (s : Nat) (l : List Nat) : List Nat :=
  l.filter (fun x => x ≠ s)

/-- From `protos.rs`: the cluster configuration (voting members and learners). -/
structure Configuration where
  members : List Nat
  learners : List Nat
deriving DecidableEq, Repr

/-- From `protos.rs` (`Configuration::apply`).  `AddLearner` on a current
member panics in the source, modelled by `none`. -/
def Configuration.applyChange (c : Configuration) : ConfigChange → Option Configuration
  | .AddLearner s =>
      if s ∈ c.members then none
      else some { c with learners := listInsert s c.learners }
  | .AddMember s =>
      some { members := listInsert s c.members, learners := listErase s c.learners }
  | .RemoveServer s =>
      some { members := listErase s c.members, learners := listErase s c.learners }

/-- From `protos.rs` (`Configuration::iter`): members chained with learners. -/
def Configuration.iterList (c : Configuration) : List Nat :=
  c.members ++ c.learners

/-- From `protos.rs`: a configuration together with the index it reflects. -/
structure ConfigurationSnapshot where
  last_applied : Nat
  data : Configuration
deriving DecidableEq, Repr

/-- Modelled from the spec: the log storage interface (`log.rs` is not under
`src/`); spec section 6.1.  Entries are kept in log order; `matchIdx` is the
durable match-index marker the host advances. -/
structure Log where
  entries : List LogEntry
  matchIdx : Option Nat
deriving DecidableEq, Repr

/-- Spec 6.1: `first_index() → Option<Nat>` (`none` when empty). -/
def Log.first_index (l : Log) : Option Nat :=
  l.entries.head?.map (fun e => e.index)

/-- Spec 6.1: `last_index() → Option<Nat>` (`none` when empty). -/
def Log.last_index (l : Log) : Option Nat :=
  l.entries.getLast?.map (fun e => e.index)

/-- Spec 6.1: `entry(index) → Option<LogEntry>`. -/
def Log.entryAt (l : Log) (i : Nat) : Option LogEntry :=
  l.entries.find? (fun e => e.index = i)

/-- Spec 6.1: `term(index) → Option<Nat>` (`some 0` for index 0). -/
def Log.termAt (l : Log) (i : Nat) : Option Nat :=
  if i = 0 then some 0 else (l.entryAt i).map (fun e => e.term)

/-- Spec 6.1: `match_index() → Option<Nat>`. -/
def Log.match_index (l : Log) : Option Nat := l.matchIdx

/-- Spec 6.1: `append(LogEntry)`. -/
def Log.append (l : Log) (e : LogEntry) : Log :=
  { l with entries := l.entries ++ [e] }

/-- Spec 6.1: `truncate_suffix(from_index)` removes entries with index
at least `from_index`. -/
def Log.truncate_suffix (l : Log) (from_index : Nat) : Log :=
  { l with entries := l.entries.filter (fun e => e.index < from_index) }

/-- The source's `log.term(log.last_index().unwrap_or(0)).unwrap()` never
panics (see `Log.termAt_last_isSome` below), so the compound read is embedded
as a total function. -/
def Log.last_term (l : Log) : Nat :=
  (l.termAt (l.last_index.getD 0)).getD 0

/-- Well-formedness of a log (spec invariant I3): indices are consecutive
starting from a first index that is at least 1. -/
def Log.chainIdx : Nat → List LogEntry → Bool
  | _, [] => true
  | i, e :: rest => decide (e.index = i) && Log.chainIdx (i + 1) rest

/-- Well-formed log: consecutive indices, first index at least 1. -/
def Log.WFb (l : Log) : Bool :=
  match l.entries with
  | [] => true
  | e :: _ => decide (1 ≤ e.index) && Log.chainIdx e.index l.entries

/-- Adjacent-pair check: terms non-decreasing along a list of entries. -/
def termsChainB : List LogEntry → Bool
  | [] => true
  | [_] => true
  | a :: b :: rest => decide (a.term ≤ b.term) && termsChainB (b :: rest)

/-- Terms are non-decreasing along the log (spec invariant I3). -/
def Log.termsMonoB (l : Log) : Bool :=
  termsChainB l.entries

/-- First index of a well-formed log (1 for the empty log); used by the
well-formedness lemmas below. -/
def Log.startIdx (l : Log) : Nat :=
  match l.entries.head? with
  | some e => e.index
  | none => 1

/-- Modelled from the spec: the pending-change bookkeeping of the
configuration state machine (`config_state.rs` is not under `src/`);
spec 6.2 requires tracking the pending change's index (for the
`RetryAfter` hint) and enough history to revert it on truncation. -/
structure ConfigPending where
  last_change : Nat
  previous : Configuration
  previous_last_applied : Nat
deriving DecidableEq, Repr

/-- Modelled from the spec: the configuration state machine
(`config_state.rs` is not under `src/`); spec 2 (component 2) and 6.2. -/
structure ConfigurationStateMachine where
  value : Configuration
  last_applied : Nat
  pending : Option ConfigPending
deriving DecidableEq, Repr

/-- Modelled from the spec (6.2): `apply(&LogEntry, commit_index)` absorbs
`Config` entries (already-committed ones leave no pending change) and tracks
the last applied index.  The underlying `Configuration::apply` may panic
(`none`). -/
def ConfigurationStateMachine.apply (c : ConfigurationStateMachine) (e : LogEntry)
    (commit_index : Nat) : Option ConfigurationStateMachine :=
  if e.index ≤ c.last_applied then some c
  else
    match e.data with
    | .Config ch =>
        match c.value.applyChange ch with
        | none => none
        | some v =>
            some { value := v, last_applied := e.index,
                   pending :=
                     if commit_index < e.index then
                       some { last_change := e.index,
                              previous :=
                                match c.pending with
                                | some p => p.previous
                                | none => c.value,
                              previous_last_applied :=
                                match c.pending with
                                | some p => p.previous_last_applied
                                | none => c.last_applied }
                     else none }
    | _ => some { c with last_applied := e.index }

/-- Modelled from the spec (6.2): `commit(commit_index) → bool`, true iff the
pending change became committed. -/
def ConfigurationStateMachine.commit (c : ConfigurationStateMachine)
    (commit_index : Nat) : ConfigurationStateMachine × Bool :=
  match c.pending with
  | some p =>
      if p.last_change ≤ commit_index then ({ c with pending := none }, true)
      else (c, false)
  | none => (c, false)

/-- Modelled from the spec (6.2): `revert(from_index)` undoes applications of
entries with index at least `from_index`. -/
def ConfigurationStateMachine.revert (c : ConfigurationStateMachine)
    (from_index : Nat) : ConfigurationStateMachine :=
  match c.pending with
  | some p =>
      if from_index ≤ p.last_change then
        { value := p.previous, last_applied := p.previous_last_applied, pending := none }
      else c
  | none => c

/-- From `protos.rs`. -/
structure AppendEntriesRequest where
  term : Nat
  leader_id : Nat
  prev_log_index : Nat
  prev_log_term : Nat
  entries : List LogEntry
  leader_commit : Nat
deriving DecidableEq, Repr

/-- From `protos.rs`. -/
structure AppendEntriesResponse where
  term : Nat
  success : Bool
  last_log_index : Option Nat
deriving DecidableEq, Repr

/-- From `protos.rs`. -/
structure RequestVoteRequest where
  term : Nat
  candidate_id : Nat
  last_log_index : Nat
  last_log_term : Nat
deriving DecidableEq, Repr

/-- From `protos.rs`. -/
structure RequestVoteResponse where
  term : Nat
  vote_granted : Bool
deriving DecidableEq, Repr

/-- `LogPosition` (from `log.rs`, reconstructed from its uses in
`consensus.rs`: `Proposal { term, index }`): a `(term, index)` pair. -/
structure LogPosition where
  term : Nat
  index : Nat
deriving DecidableEq, Repr

/-- From `protos.rs` (`MessageBody`). -/
inductive MessageBody
  | PreVote (r : RequestVoteRequest)
  | RequestVote (r : RequestVoteRequest)
  | AppendEntries (r : AppendEntriesRequest) (last_index : Nat)
deriving DecidableEq, Repr

/-- From `protos.rs` (`Message`); the source's field `to` is renamed
`to_ids` because `to` is reserved in Lean. -/
structure Message where
  to_ids : List Nat
  body : MessageBody
deriving DecidableEq, Repr

/-- From `consensus.rs` (`Tick`): the side effects of one handler call. -/
structure Tick where
  time : Nat
  meta : Bool
  config : Bool
  new_entries : Bool
  messages : List Message
  next_tick : Option Nat
deriving DecidableEq, Repr

/-- From `consensus.rs` (`ProposeError`). -/
inductive ProposeError
  | RetryAfter (p : LogPosition)
  | NotLeader (leader_hint : Option Nat)
deriving DecidableEq, Repr

/-- From `consensus.rs` (`ProposalStatus`); the source spells `Commited`. -/
inductive ProposalStatus
  | Commited
  | Failed
  | Pending
  | Missing
  | Unavailable
deriving DecidableEq, Repr

/-- Modelled from the spec: `ServerProgress` lives in `state.rs`, which is
not under `src/`; fields and initialization follow spec 3 and 4.6. -/
structure ServerProgress where
  next_index : Nat
  match_index : Nat
  last_sent : Option Nat
  request_pending : Bool
deriving DecidableEq, Repr

/-- Modelled from the spec (4.2, 4.6): `ServerProgress::new(last_log_index)`. -/
def ServerProgress.new (last_log_index : Nat) : ServerProgress :=
  { next_index := last_log_index + 1, match_index := 0,
    last_sent := none, request_pending := false }

/-- Modelled from the spec (3): follower bookkeeping (`state.rs`). -/
structure ServerFollowerState where
  election_timeout : Nat
  last_heartbeat : Nat
  last_leader_id : Option Nat
deriving DecidableEq, Repr

/-- Modelled from the spec (3): candidate bookkeeping (`state.rs`). -/
structure ServerCandidateState where
  election_start : Nat
  election_timeout : Nat
  votes_received : List Nat
  some_rejected : Bool
deriving DecidableEq, Repr

/-- Modelled from the spec (3): leader bookkeeping (`state.rs`); the
progress map is an association list keyed by `ServerId`. -/
structure ServerLeaderState where
  servers : List (Nat × ServerProgress)
deriving DecidableEq, Repr

/-- Modelled from the spec (3): the role state (`state.rs`). -/
inductive ServerState
  | Follower (s : ServerFollowerState)
  | Candidate (s : ServerCandidateState)
  | Leader (s : ServerLeaderState)
deriving DecidableEq, Repr

def ServerState.isFollowerB : ServerState → Bool
  | .Follower _ => true
  | _ => false

def ServerState.isCandidateB : ServerState → Bool
  | .Candidate _ => true
  | _ => false

def ServerState.isLeaderB : ServerState → Bool
  | .Leader _ => true
  | _ => false

/-- Progress-map lookup (`HashMap::get`). -/
def lookupProgress (l : List (Nat × ServerProgress)) (id : Nat) :
    Option ServerProgress :=
  (l.find? (fun p => p.1 = id)).map Prod.snd

/-- Progress-map update/insert (`HashMap::insert` / in-place mutation). -/
def setProgress (l : List (Nat × ServerProgress)) (id : Nat)
    (p : ServerProgress) : List (Nat × ServerProgress) :=
  if (l.find? (fun q => q.1 = id)).isSome then
    l.map (fun q => if q.1 = id then (id, p) else q)
  else l ++ [(id, p)]

/-- From `consensus.rs`: `ELECTION_TIMEOUT` in milliseconds. -/
def ELECTION_TIMEOUT : Nat × Nat := (400, 800)

/-- From `consensus.rs`: `HEARTBEAT_TIMEOUT` in milliseconds. -/
def HEARTBEAT_TIMEOUT : Nat := 150

/-- `u32::MAX`, the divisor used by `new_election_timeout`. -/
def U32_MAX : Nat := 4294967295

/-- `usize::MAX`, used by `majority_size` for empty clusters. -/
def USIZE_MAX : Nat := 18446744073709551615

/-- From `consensus.rs` (`new_election_timeout`), as a function of the raw
`u32` draw `r` from the randomness source:
`ELECTION_TIMEOUT.0 + (r as u64 * (ELECTION_TIMEOUT.1 - ELECTION_TIMEOUT.0)) / u32::MAX as u64`. -/
def new_election_timeout (r : Nat) : Nat :=
  ELECTION_TIMEOUT.1 + (r * (ELECTION_TIMEOUT.2 - ELECTION_TIMEOUT.1)) / U32_MAX

/-- From `consensus.rs` (`ConsensusModule`), extended with the stream of
pending randomness draws (see the header comment). -/
structure ConsensusModule where
  id : Nat
  meta : Metadata
  config : ConfigurationStateMachine
  log : Log
  state : ServerState
  rand : List Nat
deriving DecidableEq, Repr

namespace ConsensusModule

def withState (m : ConsensusModule) (s : ServerState) : ConsensusModule :=
  { m with state := s }

/-- Draw the next `u32` from the randomness source and turn it into an
election timeout (`Self::new_election_timeout`). -/
def drawTimeout (m : ConsensusModule) : Nat × ConsensusModule :=
  (new_election_timeout (m.rand.headD 0), { m with rand := m.rand.tail })

/-- From `consensus.rs` (`Self::new_follower`), also returning the module
with the randomness draw consumed. -/
def new_follower (m : ConsensusModule) (now : Nat) :
    ServerFollowerState × ConsensusModule :=
  let p := m.drawTimeout
  ({ election_timeout := p.1, last_heartbeat := now, last_leader_id := none }, p.2)

/-- From `consensus.rs` (`can_be_leader`). -/
def can_be_leader (m : ConsensusModule) : Bool :=
  m.meta.commit_index ≤ m.log.last_index.getD 0

/-- From `consensus.rs` (`majority_size`). -/
def majority_size (m : ConsensusModule) : Nat :=
  if m.config.value.members.length = 0 then USIZE_MAX
  else m.config.value.members.length / 2 + 1

/-- The replica count of `find_next_commit_index` for a candidate commit
index `ci`: 1 for the leader itself iff `log.match_index() ≥ ci`, plus every
progress entry of a voting member other than the leader whose
`match_index ≥ ci`. -/
def commitCount (m : ConsensusModule) (s : ServerLeaderState) (ci : Nat) : Nat :=
  (if ci ≤ m.log.match_index.getD 0 then 1 else 0) +
    (s.servers.filter
      (fun p => p.1 ∈ m.config.value.members ∧ p.1 ≠ m.id ∧ ci ≤ p.2.match_index)).length

/-- The loop of `find_next_commit_index`, walking `ci` downward; the outer
`Option` is panic (`log.term(ci).unwrap()` on a missing term), the inner
`Option` is the function's return value. -/
def fnciLoop (m : ConsensusModule) (s : ServerLeaderState) :
    Nat → Option (Option Nat)
  | 0 => some none
  | ci + 1 =>
      if ci + 1 ≤ m.meta.commit_index then some none
      else
        match m.log.termAt (ci + 1) with
        | none => none
        | some t =>
            if t < m.meta.current_term then some none
            else if t = m.meta.current_term then
              if majority_size m ≤ commitCount m s (ci + 1) then some (some (ci + 1))
              else fnciLoop m s ci
            else fnciLoop m s ci

/-- From `consensus.rs` (`find_next_commit_index`). -/
def find_next_commit_index (m : ConsensusModule) (s : ServerLeaderState) :
    Option (Option Nat) :=
  fnciLoop m s (m.log.last_index.getD 0)

/-- From `consensus.rs` (`update_commited`, the source's spelling); the
`assert!(index > commit_index)` is the `none` case. -/
def update_commited (m : ConsensusModule) (index : Nat) (tick : Tick) :
    Option (ConsensusModule × Tick) :=
  if m.meta.commit_index < index then
    let m1 := { m with meta := { m.meta with commit_index := index } }
    let t1 := { tick with meta := true }
    let p := m1.config.commit m1.meta.commit_index
    some ({ m1 with config := p.1 }, if p.2 then { t1 with config := true } else t1)
  else none

/-- The request constructor closure `new_request` of `replicate_entries`:
entries `(prev_log_index, last_log_index]` read (and unwrapped) from the
log. -/
def new_request (m : ConsensusModule) (last_log_index prev_log_index : Nat) :
    Option AppendEntriesRequest := do
  let entries ← (List.range (last_log_index - prev_log_index)).mapM
    (fun k => m.log.entryAt (prev_log_index + 1 + k))
  let pterm ← m.log.termAt prev_log_index
  some { term := m.meta.current_term, leader_id := m.id,
         prev_log_index := prev_log_index, prev_log_term := pterm,
         entries := entries, leader_commit := m.meta.commit_index }

/-- Accumulator of the `replicate_entries` loop: the (mutated) leader
progress map, the deduplication map keyed by `prev_log_index`, and the
largest elapsed-since-heartbeat seen among skipped servers. -/
def ReplicateAcc := List (Nat × ServerProgress) × List (Nat × Message) × Nat

/-- One iteration of the `replicate_entries` loop for `server_id`. -/
def replicateStep (m : ConsensusModule) (tick : Tick) (last_log_index : Nat)
    (acc : List (Nat × ServerProgress) × List (Nat × Message) × Nat)
    (server_id : Nat) :
    Option (List (Nat × ServerProgress) × List (Nat × Message) × Nat) :=
  if server_id = m.id then some acc
  else
    let servers := acc.1
    let mmap := acc.2.1
    let slh := acc.2.2
    let servers1 :=
      if (lookupProgress servers server_id).isSome then servers
      else servers ++ [(server_id, ServerProgress.new last_log_index)]
    match lookupProgress servers1 server_id with
    | none => none
    | some progress =>
        if progress.request_pending then some (servers1, mmap, slh)
        else
          let send : Option (List (Nat × ServerProgress) × List (Nat × Message) × Nat) :=
            let progress2 :=
              { progress with request_pending := true, last_sent := some tick.time }
            let servers2 := setProgress servers1 server_id progress2
            let msg_key := progress.next_index - 1
            if (mmap.find? (fun q => q.1 = msg_key)).isSome then
              some (servers2,
                mmap.map (fun q =>
                  if q.1 = msg_key then
                    (q.1, { q.2 with to_ids := q.2.to_ids ++ [server_id] })
                  else q),
                slh)
            else
              match m.new_request last_log_index msg_key with
              | none => none
              | some req =>
                  some (servers2,
                    mmap ++ [(msg_key, { to_ids := [server_id],
                                         body := .AppendEntries req last_log_index })],
                    slh)
          if last_log_index ≤ progress.match_index then
            match progress.last_sent with
            | some ts =>
                if tick.time - ts < HEARTBEAT_TIMEOUT then
                  some (servers1, mmap, max slh (tick.time - ts))
                else send
            | none => send
          else send

/-- From `consensus.rs` (`replicate_entries`): leader-side replication;
returns the suggested time to the next heartbeat. -/
def replicate_entries (m : ConsensusModule) (tick : Tick) :
    Option (Nat × ConsensusModule × Tick) :=
  match m.state with
  | .Leader s =>
      let last_log_index := m.log.last_index.getD 0
      match m.config.value.iterList.foldlM (replicateStep m tick last_log_index)
          (s.servers, ([] : List (Nat × Message)), 0) with
      | none => none
      | some acc =>
          some (HEARTBEAT_TIMEOUT - acc.2.2,
                m.withState (.Leader ⟨acc.1⟩),
                { tick with messages := tick.messages ++ acc.2.1.map Prod.snd })
  | _ => none

/-- From `consensus.rs` (`perform_election`): send `RequestVote` to every
voting member except ourselves (no message for a single-member cluster). -/
def perform_election (m : ConsensusModule) (tick : Tick) : Tick :=
  let idx := m.log.last_index.getD 0
  let req : RequestVoteRequest :=
    { term := m.meta.current_term, candidate_id := m.id,
      last_log_index := idx, last_log_term := m.log.last_term }
  let ids := m.config.value.members.filter (fun s => s ≠ m.id)
  if ids = [] then tick
  else { tick with messages := tick.messages ++ [{ to_ids := ids, body := .RequestVote req }] }

/-- From `consensus.rs` (`pre_vote`): pure vote predicate; reads only
`meta` and the log, mutates nothing. -/
def pre_vote (m : ConsensusModule) (req : RequestVoteRequest) : RequestVoteResponse :=
  let last_log_index := m.log.last_index.getD 0
  let last_log_term := m.log.last_term
  let granted : Bool :=
    if req.term < m.meta.current_term then false
    else if ¬ (last_log_term < req.last_log_term ∨
               (req.last_log_term = last_log_term ∧ last_log_index ≤ req.last_log_index)) then
      false
    else if m.meta.current_term < req.term then true
    else
      match m.meta.voted_for with
      | some id => decide (id = req.candidate_id)
      | none => true
  { term := m.meta.current_term, vote_granted := granted }

/-- From `consensus.rs` (`proposal_status`). -/
def proposal_status (m : ConsensusModule) (prop : LogPosition) : ProposalStatus :=
  let last_log_index := m.log.last_index.getD 0
  let last_log_term := m.log.last_term
  if last_log_term < prop.term ∨ last_log_index < prop.index then .Missing
  else
    match m.log.termAt prop.index with
    | none => .Unavailable
    | some cur_term =>
        if prop.term < cur_term then .Failed
        else if cur_term < prop.term then
          if prop.index ≤ m.meta.commit_index then .Failed else .Missing
        else
          if prop.index ≤ m.meta.commit_index then .Commited else .Failed

end ConsensusModule

/-- Selector for the mutually recursive trio `cycle` / `start_election` /
`propose_entry` of `consensus.rs`, embedded as the single fuel-indexed
function `blockStep`. -/
inductive BlockCall
  | cycleCall
  | startElectionCall
  | proposeEntryCall (data : LogEntryData)

/-- The dummy proposal result carried by `blockStep` for the calls
(`cycle`, `start_election`) that do not produce one; the wrappers below
discard it. -/
def dummyPos : LogPosition := { term := 0, index := 0 }

open ConsensusModule in
/-- Fuel-indexed embedding of `cycle`, `start_election` and `propose_entry`
from `consensus.rs` (they recurse into one another; see the header comment).
Fuel exhaustion is `none`, like a panic: theorems condition on a `some`
result, which corresponds to a real terminating run. -/
def blockStep : Nat → BlockCall → ConsensusModule → Tick →
    Option (ConsensusModule × Tick × Except ProposeError LogPosition)
  | 0, _, _, _ => none
  | n + 1, c, m, tick =>
    match c with
    | .cycleCall =>
      -- inactivity guard: no members, or we are not a voting member
      if m.config.value.members.length = 0 ∨ m.id ∉ m.config.value.members then
        some (m, { tick with next_tick := some 1000 }, .ok dummyPos)
      else
        match m.state with
        | .Follower s =>
            if ¬ m.can_be_leader then
              if m.config.value.members.length = 1 then
                none  -- panic: corrupt log in single-node mode
              else
                let p := m.new_follower tick.time
                some (p.2.withState (.Follower p.1), tick, .ok dummyPos)
            else if s.election_timeout ≤ tick.time - s.last_heartbeat ∨
                m.config.value.members.length = 1 then
              blockStep n .startElectionCall m tick
            else
              let remaining := s.election_timeout - (tick.time - s.last_heartbeat)
              some (m, { tick with next_tick := some remaining }, .ok dummyPos)
        | .Candidate s =>
            if m.majority_size ≤ 1 + s.votes_received.length then
              let last_log_index := m.log.last_index.getD 0
              let servers := (m.config.value.iterList.filter (fun x => x ≠ m.id)).map
                (fun sid => (sid, ServerProgress.new last_log_index))
              let m1 := m.withState (.Leader ⟨servers⟩)
              if m1.meta.commit_index < last_log_index then
                match blockStep n (.proposeEntryCall .Noop) m1 tick with
                | some (m2, t2, .ok _) => blockStep n .cycleCall m2 t2
                | _ => none  -- .expect: failed to propose noop as the leader
              else blockStep n .cycleCall m1 tick
            else
              let elapsed := tick.time - s.election_start
              if s.election_timeout ≤ elapsed then
                blockStep n .startElectionCall m tick
              else
                some (m, { tick with next_tick := some (s.election_timeout - elapsed) },
                  .ok dummyPos)
        | .Leader s =>
            match m.find_next_commit_index s with
            | none => none  -- panic inside find_next_commit_index
            | some nci =>
                match
                  (match nci with
                   | some ci => m.update_commited ci tick
                   | none => some (m, tick)) with
                | none => none
                | some (m1, t1) =>
                    match m1.replicate_entries t1 with
                    | none => none
                    | some (nh, m2, t2) =>
                        let nh2 :=
                          if m2.config.value.members.length +
                              m2.config.value.learners.length = 1 then 2000
                          else nh
                        some (m2, { t2 with next_tick := some nh2 }, .ok dummyPos)
    | .startElectionCall =>
      if ¬ m.can_be_leader then none  -- panic: cannot be leader of this cluster
      else
        let must_increment :=
          match m.state with
          | .Candidate s => s.some_rejected
          | _ => true
        let newMeta :=
          { m.meta with current_term := m.meta.current_term + 1, voted_for := some m.id }
        let m1 := if must_increment then { m with meta := newMeta } else m
        let t1 := if must_increment then { tick with meta := true } else tick
        let p := m1.drawTimeout
        let m3 := p.2.withState (.Candidate
          { election_start := t1.time, election_timeout := p.1,
            votes_received := [], some_rejected := false })
        blockStep n .cycleCall m3 (m3.perform_election t1)
    | .proposeEntryCall data =>
      match m.state with
      | .Leader _ =>
          let index := m.log.last_index.getD 0 + 1
          let term := m.meta.current_term
          if term = 0 then none  -- assert!(term > 0)
          else
            match
              (match data with
               | .Config _ => m.config.pending
               | _ => none) with
            | some pending =>
                (match m.log.termAt pending.last_change with
                 | some t => some (m, tick,
                     .error (.RetryAfter { term := t, index := pending.last_change }))
                 | none => none)  -- .unwrap() on the pending change's term
            | none =>
                let newEntry : LogEntry := { index := index, term := term, data := data }
                let m1 := { m with log := m.log.append newEntry }
                let t1 := { tick with new_entries := true }
                match m1.log.entryAt index with
                | none => none  -- .unwrap() after append
                | some e =>
                    match m1.config.apply e m1.meta.commit_index with
                    | none => none  -- Configuration::apply panic
                    | some cfg =>
                        match blockStep n .cycleCall { m1 with config := cfg } t1 with
                        | none => none
                        | some (m2, t2, _) =>
                            some (m2, t2, .ok { term := term, index := index })
      | .Follower s =>
          some (m, tick, .error (.NotLeader (s.last_leader_id.orElse
            (fun _ => m.meta.voted_for))))
      | .Candidate _ => some (m, tick, .error (.NotLeader none))

namespace ConsensusModule

/-- From `consensus.rs` (`cycle`), at the given fuel. -/
def cycle (n : Nat) (m : ConsensusModule) (tick : Tick) :
    Option (ConsensusModule × Tick) :=
  (blockStep n .cycleCall m tick).map (fun r => (r.1, r.2.1))

/-- From `consensus.rs` (`start_election`), at the given fuel. -/
def start_election (n : Nat) (m : ConsensusModule) (tick : Tick) :
    Option (ConsensusModule × Tick) :=
  (blockStep n .startElectionCall m tick).map (fun r => (r.1, r.2.1))

/-- From `consensus.rs` (`propose_entry`), at the given fuel. -/
def propose_entry (n : Nat) (m : ConsensusModule) (data : LogEntryData) (tick : Tick) :
    Option (ConsensusModule × Tick × Except ProposeError LogPosition) :=
  blockStep n (.proposeEntryCall data) m tick

/-- From `consensus.rs` (`propose_noop`). -/
def propose_noop (n : Nat) (m : ConsensusModule) (tick : Tick) :
    Option (ConsensusModule × Tick × Except ProposeError LogPosition) :=
  m.propose_entry n .Noop tick

/-- From `consensus.rs` (`propose_command`). -/
def propose_command (n : Nat) (m : ConsensusModule) (data : List Nat) (tick : Tick) :
    Option (ConsensusModule × Tick × Except ProposeError LogPosition) :=
  m.propose_entry n (.Command data) tick

/-- From `consensus.rs` (`become_follower`). -/
def become_follower (n : Nat) (m : ConsensusModule) (tick : Tick) :
    Option (ConsensusModule × Tick) :=
  let p := m.new_follower tick.time
  cycle n (p.2.withState (.Follower p.1)) tick

/-- From `consensus.rs` (`observe_term`). -/
def observe_term (n : Nat) (m : ConsensusModule) (term : Nat) (tick : Tick) :
    Option (ConsensusModule × Tick) :=
  if m.meta.current_term < term then
    become_follower n
      { m with meta := { m.meta with current_term := term, voted_for := none } }
      { tick with meta := true }
  else some (m, tick)

/-- From `consensus.rs` (`request_vote`).  The `MustPersistMetadata` wrapper
of the source is a typestate token with no data beyond the response, so the
response is returned directly.  The `none` cases are the panic inside a
`cycle` triggered by `observe_term` and the source's
"Granted vote but did not transition back to being a follower" panic. -/
def request_vote (n : Nat) (m : ConsensusModule) (req : RequestVoteRequest)
    (tick : Tick) : Option (RequestVoteResponse × ConsensusModule × Tick) :=
  match m.observe_term n req.term tick with
  | none => none
  | some (m1, t1) =>
      let res := m1.pre_vote req
      if res.vote_granted then
        match m1.state with
        | .Follower s =>
            let m2 := { m1 with meta := { m1.meta with voted_for := some req.candidate_id } }
            some (res, m2.withState (.Follower { s with last_heartbeat := t1.time }),
              { t1 with meta := true })
        | _ => none  -- panic: granted vote while not a follower
      else some (res, m1, t1)

/-- From `consensus.rs` (`request_vote_callback`). -/
def request_vote_callback (n : Nat) (m : ConsensusModule) (from_id : Nat)
    (resp : RequestVoteResponse) (tick : Tick) : Option (ConsensusModule × Tick) :=
  match m.observe_term n resp.term tick with
  | none => none
  | some (m1, t1) =>
      if m1.meta.current_term ≠ resp.term then some (m1, t1)
      else if from_id = m1.id then some (m1, t1)
      else
        match m1.state with
        | .Candidate s =>
            let s2 :=
              if resp.vote_granted then
                { s with votes_received := listInsert from_id s.votes_received }
              else { s with some_rejected := true }
            (m1.withState (.Candidate s2)).cycle n t1
        | _ => some (m1, t1)

/-- From `consensus.rs` (`append_entries_callback`).  The first `none` inside
the leader branch is the source's `s.servers.get_mut(&from_id).unwrap()`,
which panics when `from_id` has no progress entry. -/
def append_entries_callback (n : Nat) (m : ConsensusModule) (from_id : Nat)
    (last_index : Nat) (resp : AppendEntriesResponse) (tick : Tick) :
    Option (ConsensusModule × Tick) :=
  match m.observe_term n resp.term tick with
  | none => none
  | some (m1, t1) =>
      match m1.state with
      | .Leader s =>
          match lookupProgress s.servers from_id with
          | none => none  -- .unwrap() on a missing ServerProgress entry
          | some progress =>
              if resp.success then
                let progress2 :=
                  if progress.match_index < last_index then
                    { progress with match_index := last_index, next_index := last_index + 1 }
                  else progress
                let should_noop : Bool :=
                  match resp.last_log_index with
                  | some idx =>
                      decide (m1.log.last_index.getD 0 < idx) &&
                        decide (¬ m1.log.last_term = m1.meta.current_term)
                  | none => false
                let progress3 := { progress2 with request_pending := false }
                let m2 := m1.withState
                  (.Leader ⟨setProgress s.servers from_id progress3⟩)
                if should_noop then
                  match blockStep n (.proposeEntryCall .Noop) m2 t1 with
                  | some (m3, t3, .ok _) => some (m3, t3)
                  | _ => none  -- .expect: failed to propose noop as leader
                else m2.cycle n t1
              else
                match
                  (match resp.last_log_index with
                   | some idx => some (idx + 1)
                   | none =>
                       -- `progress.next_index -= 1`: u64 underflow panics
                       if progress.next_index = 0 then none
                       else some (progress.next_index - 1)) with
                | none => none
                | some ni =>
                    let progress2 :=
                      { progress with next_index := ni, request_pending := false }
                    let m2 := m1.withState
                      (.Leader ⟨setProgress s.servers from_id progress2⟩)
                    m2.cycle n t1
      | _ => some (m1, t1)

/-- From `consensus.rs` (`append_entries_noresponse`); the `none` case is the
source's `.unwrap()` on a missing ServerProgress entry. -/
def append_entries_noresponse (m : ConsensusModule) (from_id : Nat)
    (tick : Tick) : Option (ConsensusModule × Tick) :=
  match m.state with
  | .Leader s =>
      match lookupProgress s.servers from_id with
      | none => none
      | some p =>
          some (m.withState (.Leader
            ⟨setProgress s.servers from_id { p with request_pending := false }⟩), tick)
  | _ => some (m, tick)

/-- From `consensus.rs` (`timeout_now`). -/
def timeout_now (n : Nat) (m : ConsensusModule) (tick : Tick) :
    Option (ConsensusModule × Tick) :=
  m.start_election n tick

end ConsensusModule

/-- `MatchConstraint<AppendEntriesResponse>` (from `constraint.rs`, not under
`src/`): the response together with the optional log position it is
constrained on (`.into()` of a bare response leaves no position,
`MatchConstraint::new` records one). -/
structure MatchConstraintAE where
  resp : AppendEntriesResponse
  pos : Option LogPosition
deriving DecidableEq, Repr

def refuseMsg : String := "Refusing to truncate changes already locally committed"

def twoLeadersMsg : String :=
  "This should never happen. We are receiving append entries from another leader in the same term"

def candidateMsg : String := "How can we still be a candidate right now?"

def notFollowMsg : String := "Received previous entry does not follow"

def unsortedMsg : String := "Received entries are unsorted, duplicates, or inconsistent"

def beforeStartMsg : String := "Requested previous log entry is before the start of the log"

def notAfterMsg : String := "Next new entry is not immediately after our last local one"

/-- The second sanity check of `append_entries`: consecutive request entries
have non-decreasing terms and strictly consecutive indices (the loop over
`0..(req.entries.len() - 1)`). -/
def ae_entries_sorted : List LogEntry → Bool
  | [] => true
  | [_] => true
  | a :: b :: rest =>
      (decide (a.term ≤ b.term) && decide (b.index = a.index + 1)) &&
        ae_entries_sorted (b :: rest)

namespace ConsensusModule

/-- The conflict-resolution walk of `append_entries` (the `for e in
req.entries` loop): skip entries already in the log, stop at the first
missing index, and on the first conflicting entry either refuse (committed)
or revert the config and truncate the log.  Returns the index `first_new`
into the request entries together with the possibly-truncated module. -/
def ae_walk (m : ConsensusModule) (acc : Nat) :
    List LogEntry → Except String (Nat × ConsensusModule)
  | [] => .ok (acc, m)
  | e :: rest =>
      match m.log.termAt e.index with
      | some t =>
          if t = e.term then ae_walk m (acc + 1) rest
          else if e.index ≤ m.meta.commit_index then .error refuseMsg
          else .ok (acc,
            { m with config := m.config.revert e.index,
                     log := m.log.truncate_suffix e.index })
      | none => .ok (acc, m)

/-- The append loop of `append_entries`: append each remaining entry,
re-read it (`.unwrap()`) and apply it to the configuration state machine. -/
def ae_append (m : ConsensusModule) (t : Tick) :
    List LogEntry → Option (ConsensusModule × Tick)
  | [] => some (m, t)
  | e :: rest =>
      let m1 := { m with log := m.log.append e }
      let t1 := { t with new_entries := true }
      match m1.log.entryAt e.index with
      | none => none
      | some e2 =>
          match m1.config.apply e2 m1.meta.commit_index with
          | none => none
          | some cfg => ae_append { m1 with config := cfg } t1 rest

/-- Commit advancement and response construction of `append_entries`
(everything after the append loop). -/
def ae_stage6 (m4 : ConsensusModule) (req : AppendEntriesRequest) (t : Tick)
    (first_new : Nat) : Option (ConsensusModule × Tick × Except String MatchConstraintAE) :=
  let remaining := req.entries.drop first_new
  let last_new :=
    match remaining.getLast? with
    | some e => e.index
    | none => req.prev_log_index
  let last_new_term :=
    match remaining.getLast? with
    | some e => e.term
    | none => req.prev_log_term
  match ae_append m4 t remaining with
  | none => none
  | some (m5, t5) =>
      let step : Option (ConsensusModule × Tick) :=
        if m5.meta.commit_index < req.leader_commit then
          if m5.meta.commit_index < min req.leader_commit last_new then
            m5.update_commited (min req.leader_commit last_new) t5
          else some (m5, t5)
        else some (m5, t5)
      match step with
      | none => none
      | some (m6, t6) =>
          let last_log_index := m6.log.last_index.getD 0
          some (m6, t6, .ok
            { resp := { term := m6.meta.current_term, success := true,
                        last_log_index :=
                          if last_log_index ≠ last_new then some last_log_index
                          else none },
              pos := some { term := last_new_term, index := last_new } })

/-- Conflict resolution of `append_entries`: run the walk, then the
"next new entry follows our log" assertion. -/
def ae_stage5 (m3 : ConsensusModule) (req : AppendEntriesRequest) (t : Tick) :
    Option (ConsensusModule × Tick × Except String MatchConstraintAE) :=
  match ae_walk m3 0 req.entries with
  | .error e => some (m3, t, .error e)
  | .ok (first_new, m4) =>
      match req.entries.drop first_new with
      | [] => ae_stage6 m4 req t first_new
      | next :: _ =>
          if next.index ≠ m4.log.last_index.getD 0 + 1 ∨ next.term < m4.log.last_term then
            some (m4, t, .error notAfterMsg)
          else ae_stage6 m4 req t first_new

/-- Snapshot-edge and prev-entry consistency checks of `append_entries`. -/
def ae_stage4 (m3 : ConsensusModule) (req : AppendEntriesRequest) (t : Tick) :
    Option (ConsensusModule × Tick × Except String MatchConstraintAE) :=
  if req.prev_log_index < m3.log.first_index.getD 1 - 1 then
    some (m3, t, .error beforeStartMsg)
  else
    match m3.log.termAt req.prev_log_index with
    | some tm =>
        if tm ≠ req.prev_log_term then
          some (m3, t, .ok
            { resp := { term := m3.meta.current_term, success := false,
                        last_log_index := some m3.meta.commit_index },
              pos := none })
        else ae_stage5 m3 req t
    | none =>
        some (m3, t, .ok
          { resp := { term := m3.meta.current_term, success := false,
                      last_log_index := some (m3.log.last_index.getD 0) },
            pos := none })

/-- Batch sanity checks of `append_entries`. -/
def ae_stage3 (m3 : ConsensusModule) (req : AppendEntriesRequest) (t : Tick) :
    Option (ConsensusModule × Tick × Except String MatchConstraintAE) :=
  match req.entries with
  | [] => ae_stage4 m3 req t
  | first :: _ =>
      if first.term < req.prev_log_term ∨ first.index ≠ req.prev_log_index + 1 then
        some (m3, t, .error notFollowMsg)
      else if ae_entries_sorted req.entries = false then
        some (m3, t, .error unsortedMsg)
      else ae_stage4 m3 req t

/-- `append_entries` after `observe_term` and candidate demotion: the stale
term check, the `assert_eq!(req.term, current_term)` (provably dead, `none`)
and the dispatch on the role. -/
def ae_stage2 (m2 : ConsensusModule) (req : AppendEntriesRequest) (t : Tick) :
    Option (ConsensusModule × Tick × Except String MatchConstraintAE) :=
  if req.term < m2.meta.current_term then
    some (m2, t, .ok
      { resp := { term := m2.meta.current_term, success := false, last_log_index := none },
        pos := none })
  else if req.term ≠ m2.meta.current_term then none
  else
    match m2.state with
    | .Follower s =>
        ae_stage3 (m2.withState (.Follower
          { s with last_heartbeat := t.time, last_leader_id := some req.leader_id })) req t
    | .Leader _ =>
        if req.leader_id ≠ m2.id then some (m2, t, .error twoLeadersMsg)
        else ae_stage3 m2 req t
    | .Candidate _ => some (m2, t, .error candidateMsg)

/-- From `consensus.rs` (`append_entries`): result value `Except.error` is a
returned protocol error (the host closes the connection), outer `none` is a
panic (transitively through `observe_term`/`become_follower`/`cycle`, or the
dead `assert_eq`). -/
def append_entries (n : Nat) (m : ConsensusModule) (req : AppendEntriesRequest)
    (tick : Tick) : Option (ConsensusModule × Tick × Except String MatchConstraintAE) :=
  match m.observe_term n req.term tick with
  | none => none
  | some (m1, t1) =>
      match
        (if req.term = m1.meta.current_term ∧ m1.state.isCandidateB = true then
           m1.become_follower n t1
         else some (m1, t1)) with
      | none => none
      | some (m2, t2) => ae_stage2 m2 req t2

/-- The loop of `ConsensusModule::new` that replays log entries into the
configuration state machine. -/
def applyRange (log : Log) (commit : Nat) :
    ConfigurationStateMachine → List Nat → Option ConfigurationStateMachine
  | c, [] => some c
  | c, i :: rest =>
      match log.entryAt i with
      | none => none
      | some e =>
          match c.apply e commit with
          | none => none
          | some c2 => applyRange log commit c2 rest

/-- From `consensus.rs` (`ConsensusModule::new`): construction reconciles the
metadata with the log and the config snapshot; `none` is the source's
"Config snapshot is from before the start of the log" panic (or a panic
replaying the log into the configuration). -/
def new (id : Nat) (meta : Metadata) (config_snapshot : ConfigurationSnapshot)
    (log : Log) (now : Nat) (rand : List Nat) : Option ConsensusModule :=
  let last_log_term := log.last_term
  let meta1 :=
    if meta.current_term < last_log_term then
      { meta with current_term := last_log_term, voted_for := none }
    else meta
  let meta2 :=
    if meta1.commit_index < config_snapshot.last_applied then
      { meta1 with commit_index := config_snapshot.last_applied }
    else meta1
  if config_snapshot.last_applied + 1 < log.first_index.getD 0 then none
  else
    let config0 : ConfigurationStateMachine :=
      { value := config_snapshot.data, last_applied := config_snapshot.last_applied,
        pending := none }
    let last_log_index := log.last_index.getD 0
    let idxs := (List.range (last_log_index + 1 - (config0.last_applied + 1))).map
      (fun k => config0.last_applied + 1 + k)
    match applyRange log meta2.commit_index config0 idxs with
    | none => none
    | some cfg =>
        let et := new_election_timeout (rand.headD 0)
        some { id := id, meta := meta2, config := cfg, log := log,
               state := .Follower { election_timeout := et, last_leader_id := none,
                                    last_heartbeat := now },
               rand := rand.tail }

/-- The call shape of `pre_vote(&self, req)`: the source takes `&self` (no
interior mutability is used), so the embedded call yields the response
together with the module state after the call. -/
def pre_vote_call (m : ConsensusModule) (req : RequestVoteRequest) :
    RequestVoteResponse × ConsensusModule :=
  (m.pre_vote req, m)

end ConsensusModule

open ConsensusModule

/-! ### Concrete states used to instantiate the theorems -/

/-- A tick at time 0 (the shape of `Tick::empty`). -/
def tick0 : Tick := ⟨0, false, false, false, [], none⟩

/-- A three-entry log `[(1,1), (2,1), (3,1)]`, fully flushed. -/
def log111 : Log := ⟨[⟨1, 1, .Noop⟩, ⟨2, 1, .Noop⟩, ⟨3, 1, .Noop⟩], some 3⟩

/-- Follower 1 of `{1, 2}` at term 1 with `commit_index = 2` over `log111`
(the committed-truncation scenario of spec section 8, scenario 3, with the
request arriving from a newer-term leader). -/
def mRefuse : ConsensusModule :=
  { id := 1, meta := ⟨1, some 1, 2⟩, config := ⟨⟨[1, 2], []⟩, 0, none⟩,
    log := log111, state := .Follower ⟨500, 0, none⟩, rand := [] }

/-- An `append_entries` request from leader 2 at term 2 whose entry `(2,2)`
conflicts with `log111` at index `2 ≤ commit_index`. -/
def reqRefuse : AppendEntriesRequest := ⟨2, 2, 1, 1, [⟨2, 2, .Noop⟩], 2⟩

/-- Follower 1 of `{1, 2}` at term 1, log `[(1,1)]`, nothing committed:
the log entry at index 1 has exactly the term of proposal `(1,1)` while
`commit_index < 1`. -/
def mPending : ConsensusModule :=
  { id := 1, meta := ⟨1, none, 0⟩, config := ⟨⟨[1, 2], []⟩, 0, none⟩,
    log := ⟨[⟨1, 1, .Noop⟩], none⟩, state := .Follower ⟨500, 0, none⟩, rand := [] }

/-- Leader 1 of the single-member cluster `{1}` at term 1 whose progress map
has no entry at all (exactly the state `cycle` builds for a fresh single-node
leader). -/
def mLoneLeader : ConsensusModule :=
  { id := 1, meta := ⟨1, some 1, 0⟩, config := ⟨⟨[1], []⟩, 0, none⟩,
    log := ⟨[], some 0⟩, state := .Leader ⟨[]⟩, rand := [] }

/-- A module agreeing with `mPending` on `meta` and `log` but differing in
role state and randomness stream (used to instantiate C6's frame part). -/
def mPendingVariant : ConsensusModule :=
  { mPending with rand := [5], state := .Candidate ⟨0, 400, [], false⟩ }

/-- Leader 1 of the single-member cluster `{1}` at term 1 with the entry
`(1,1)` durably flushed: index 1 is committable (its own vote is the
majority). -/
def mCommitReady : ConsensusModule :=
  { id := 1, meta := ⟨1, some 1, 0⟩, config := ⟨⟨[1], []⟩, 0, none⟩,
    log := ⟨[⟨1, 1, .Noop⟩], some 1⟩, state := .Leader ⟨[]⟩, rand := [] }

/-- Leader 1 of `{1, 2, 3}` at term 1 with entry `(1,1)` flushed locally but
replicated nowhere else: no index is committable (1 < majority 2). -/
def mCommitShort : ConsensusModule :=
  { id := 1, meta := ⟨1, some 1, 0⟩, config := ⟨⟨[1, 2, 3], []⟩, 0, none⟩,
    log := ⟨[⟨1, 1, .Noop⟩], some 1⟩, state := .Leader ⟨[]⟩, rand := [] }

/-- The role/vote invariant behind C10: a candidate or leader has always
voted for itself in its current term. -/
def VotedInv (m : ConsensusModule) : Prop :=
  match m.state with
  | .Candidate _ => m.meta.voted_for = some m.id
  | .Leader _ => m.meta.voted_for = some m.id
  | .Follower _ => True

/-- Shared frame of the `append_entries` stages: the term is unchanged, the
commit index only grows, the vote and id are unchanged, and the role is
either untouched or remains Follower (heartbeat bookkeeping). -/
def AEFrame (m2 m' : ConsensusModule) : Prop :=
  m'.meta.current_term = m2.meta.current_term ∧
  m2.meta.commit_index ≤ m'.meta.commit_index ∧
  m'.meta.voted_for = m2.meta.voted_for ∧
  m'.id = m2.id ∧
  (m'.state = m2.state ∨ (m'.state.isFollowerB = true ∧ m2.state.isFollowerB = true))

/-- The result of one `cycle` on `mCommitReady` (it commits index 1), used
to instantiate C4's witness. -/
def c4res : ConsensusModule × Tick :=
  (ConsensusModule.cycle 6 mCommitReady tick0).getD (mCommitReady, tick0)

/-- States reachable by the module: constructed by `ConsensusModule::new` or
produced from a reachable state by some handler returning normally. -/
inductive Reachable : ConsensusModule → Prop
  | init (id : Nat) (meta : Metadata) (snap : ConfigurationSnapshot) (log : Log)
      (now : Nat) (rand : List Nat) (m : ConsensusModule) :
      ConsensusModule.new id meta snap log now rand = some m → Reachable m
  | request_vote_step (n : Nat) (m : ConsensusModule) (req : RequestVoteRequest)
      (tick : Tick) (res : RequestVoteResponse) (m' : ConsensusModule) (t' : Tick) :
      Reachable m → m.request_vote n req tick = some (res, m', t') → Reachable m'
  | append_entries_step (n : Nat) (m : ConsensusModule) (req : AppendEntriesRequest)
      (tick : Tick) (m' : ConsensusModule) (t' : Tick)
      (res : Except String MatchConstraintAE) :
      Reachable m → m.append_entries n req tick = some (m', t', res) → Reachable m'
  | request_vote_callback_step (n : Nat) (m : ConsensusModule) (from_id : Nat)
      (resp : RequestVoteResponse) (tick : Tick) (m' : ConsensusModule) (t' : Tick) :
      Reachable m → m.request_vote_callback n from_id resp tick = some (m', t') →
      Reachable m'
  | append_entries_callback_step (n : Nat) (m : ConsensusModule) (from_id li : Nat)
      (resp : AppendEntriesResponse) (tick : Tick) (m' : ConsensusModule) (t' : Tick) :
      Reachable m → m.append_entries_callback n from_id li resp tick = some (m', t') →
      Reachable m'
  | append_entries_noresponse_step (m : ConsensusModule) (from_id : Nat) (tick : Tick)
      (m' : ConsensusModule) (t' : Tick) :
      Reachable m → m.append_entries_noresponse from_id tick = some (m', t') →
      Reachable m'
  | propose_entry_step (n : Nat) (m : ConsensusModule) (data : LogEntryData)
      (tick : Tick) (m' : ConsensusModule) (t' : Tick)
      (res : Except ProposeError LogPosition) :
      Reachable m → m.propose_entry n data tick = some (m', t', res) → Reachable m'
  | cycle_step (n : Nat) (m : ConsensusModule) (tick : Tick)
      (m' : ConsensusModule) (t' : Tick) :
      Reachable m → m.cycle n tick = some (m', t') → Reachable m'
  | timeout_now_step (n : Nat) (m : ConsensusModule) (tick : Tick)
      (m' : ConsensusModule) (t' : Tick) :
      Reachable m → m.timeout_now n tick = some (m', t') → Reachable m'

/-- A freshly constructed two-member module at term 0 with an empty log
(used to instantiate C10's witness). -/
def c10m : ConsensusModule :=
  (ConsensusModule.new 1 ⟨0, none, 0⟩ ⟨0, ⟨[1, 2], []⟩⟩ ⟨[], none⟩ 0 []).getD mPending

/-- The state after `c10m` observes term 1 (used by C10's witness). -/
def c10obs : ConsensusModule × Tick :=
  (ConsensusModule.observe_term 6 c10m 1 tick0).getD (c10m, tick0)

/-- Decidable equality for `Except` results (used to evaluate the
handlers on concrete inputs). -/
def exceptDecEq {α β : Type} [DecidableEq α] [DecidableEq β] :
    (a b : Except α β) → Decidable (a = b)
  | .error x, .error y =>
      if h : x = y then .isTrue (by rw [h])
      else .isFalse (fun hc => h (Except.error.inj hc))
  | .error _, .ok _ => .isFalse (fun hc => Except.noConfusion hc)
  | .ok _, .error _ => .isFalse (fun hc => Except.noConfusion hc)
  | .ok x, .ok y =>
      if h : x = y then .isTrue (by rw [h])
      else .isFalse (fun hc => h (Except.ok.inj hc))

instance {α β : Type} [DecidableEq α] [DecidableEq β] : DecidableEq (Except α β) :=
  exceptDecEq

def c1res : ConsensusModule × Tick × Except String MatchConstraintAE :=
  (append_entries 6 mRefuse reqRefuse tick0).getD (mRefuse, tick0, .error "")

def aeLastNew (req : AppendEntriesRequest) (fn : Nat) : Nat :=
  match (req.entries.drop fn).getLast? with
  | some e => e.index
  | none => req.prev_log_index

def aeOkResult (m4 : ConsensusModule) (req : AppendEntriesRequest) : MatchConstraintAE :=
  { resp := { term := m4.meta.current_term, success := true,
              last_log_index :=
                if m4.log.last_index.getD 0 ≠ req.prev_log_index then
                  some (m4.log.last_index.getD 0)
                else none },
    pos := some { term := req.prev_log_term, index := req.prev_log_index } }

def c7req : AppendEntriesRequest := ⟨1, 2, 1, 1, [⟨2, 1, .Noop⟩], 1⟩

def c7first : ConsensusModule × Tick × Except String MatchConstraintAE :=
  (append_entries 6 mPending c7req tick0).getD (mPending, tick0, .error "")

def c7mc : MatchConstraintAE :=
  match c7first.2.2 with
  | .ok mc => mc
  | .error _ => { resp := { term := 0, success := false, last_log_index := none },
                  pos := none }

def c7s : ServerFollowerState :=
  match c7first.1.state with
  | .Follower s => s
  | _ => ⟨0, 0, none⟩

/-! ### Basic facts about the log model -/

theorem Log.termAt_zero (l : Log) : l.termAt 0 = some 0 := by
  simp [Log.termAt]

theorem Log.termAt_last_isSome (l : Log) :
    (l.termAt (l.last_index.getD 0)).isSome = true := by
  rcases h : l.entries.getLast? with _ | e
  · simp [Log.last_index, h, Log.termAt]
  · have hmem : e ∈ l.entries := by
      obtain ⟨hne, he⟩ := List.mem_getLast?_eq_getLast (l := l.entries) (x := e) (by simp [h])
      exact he ▸ List.getLast_mem hne
    have hfind : (l.entries.find? (fun x => x.index = e.index)).isSome = true := by
      rw [List.find?_isSome]
      exact ⟨e, hmem, by simp⟩
    rcases he : e.index with _ | i
    · simp [Log.last_index, h, Log.termAt, he]
    · simp only [Log.last_index, h, Option.map_some', Option.getD_some, Log.termAt, he,
        Log.entryAt]
      rw [if_neg (Nat.succ_ne_zero i)]
      cases hx : List.find? (fun e => decide (e.index = i + 1)) l.entries <;> simp [hx]
      rw [← he] at hx
      simp [Log.entryAt, hx] at hfind

/-! ### C2: `proposal_status` on a term-matching uncommitted entry -/

/-- C2: the source labels a proposal `Failed` when the log entry at
`prop.index` has exactly the proposal's term but `commit_index < prop.index`
— the entry is still awaiting replication, so by the source's own
documentation of `ProposalStatus` (`Failed` = "will never be commited",
`Pending` = "still pending replication") the status should be `Pending`.
This theorem evaluates the embedded source at the failing input. -/
theorem C2_proposal_status_failed_at_pending :
    mPending.proposal_status ⟨1, 1⟩ = .Failed ∧
      mPending.log.termAt 1 = some 1 ∧ mPending.meta.commit_index < 1 := by
  decide

/-! ### C8: range of `new_election_timeout` -/

/-- C8 counterexample: the source divides by `u32::MAX` (not `2^32`), so the
draw `r = u32::MAX` produces exactly 800 ms, contradicting the claimed
strict upper bound `< 800`. -/
theorem C8_counterexample_800_attained :
    new_election_timeout (U32_MAX) = 800 ∧ ¬ new_election_timeout U32_MAX < 800 := by
  constructor
  · decide
  · decide

/-- C8 amended: for every `u32` draw, the election timeout is at least
400 ms and at most 800 ms (800 being attained only at `r = u32::MAX`). -/
theorem C8_amended_timeout_range (r : Nat) (hr : r < 2 ^ 32) :
    400 ≤ new_election_timeout r ∧ new_election_timeout r ≤ 800 := by
  have hform : new_election_timeout r = 400 + r * 400 / U32_MAX := by
    simp [new_election_timeout, ELECTION_TIMEOUT]
  have h1 : r * 400 ≤ U32_MAX * 400 :=
    Nat.mul_le_mul_right 400 (by unfold U32_MAX; omega)
  have h2 : r * 400 / U32_MAX ≤ U32_MAX * 400 / U32_MAX := Nat.div_le_div_right h1
  have h3 : U32_MAX * 400 / U32_MAX = 400 := by
    rw [Nat.mul_comm]
    exact Nat.mul_div_cancel 400 (by unfold U32_MAX; omega)
  rw [h3] at h2
  refine ⟨?_, ?_⟩
  · rw [hform]
    exact Nat.le_add_right 400 _
  · rw [hform]
    have h4 : 400 + r * 400 / U32_MAX ≤ 400 + 400 := Nat.add_le_add_left h2 400
    simpa using h4

/-- Witness for C8's amended theorem at the concrete draw `r = 7`. -/
theorem C8_amended_timeout_range_witness :
    400 ≤ new_election_timeout 7 ∧ new_election_timeout 7 ≤ 800 :=
  C8_amended_timeout_range 7 (by norm_num)

/-! ### C9: callbacks panic on a missing progress entry -/

/-- C9: contrary to the "never panic" contract, a leader that receives an
`append_entries` response (or no-response notification) from a server with
no `ServerProgress` entry hits the source's `.unwrap()` on
`s.servers.get_mut(&from_id)` and panics (`none`): evaluated here at a
fresh single-node leader receiving a callback from server 2. -/
theorem C9_callback_panics_on_missing_progress :
    append_entries_callback 6 mLoneLeader 2 0 ⟨1, true, none⟩ tick0 = none ∧
      append_entries_noresponse mLoneLeader 2 tick0 = none := by
  constructor
  · decide
  · decide

/-! ### C5, C6: `pre_vote` -/

/-- C5: `pre_vote` grants the vote iff the request's term is at least ours,
the candidate's log is at least as up-to-date as ours (strictly higher last
log term, or equal last log terms and at least our last log index), and
either the request's term is strictly higher than ours or we have not voted
for a different candidate in this term. -/
theorem C5_pre_vote_grant_iff (m : ConsensusModule) (req : RequestVoteRequest) :
    (m.pre_vote req).vote_granted = true ↔
      (m.meta.current_term ≤ req.term ∧
        (m.log.last_term < req.last_log_term ∨
          (req.last_log_term = m.log.last_term ∧
            m.log.last_index.getD 0 ≤ req.last_log_index)) ∧
        (m.meta.current_term < req.term ∨ m.meta.voted_for = none ∨
          m.meta.voted_for = some req.candidate_id)) := by
  unfold ConsensusModule.pre_vote
  rcases hv : m.meta.voted_for with _ | v <;>
    simp only [hv] <;> split_ifs <;> simp <;> omega

/-- C6: `pre_vote` is pure: the call leaves the module state unchanged, a
second call on the resulting state with the identical request returns the
identical response, and the response depends only on the observable inputs
`meta` and `log`. -/
theorem C6_pre_vote_purity (m : ConsensusModule) (req : RequestVoteRequest) :
    (pre_vote_call m req).2 = m ∧
      (pre_vote_call (pre_vote_call m req).2 req).1 = (pre_vote_call m req).1 ∧
      (∀ m2 : ConsensusModule, m2.meta = m.meta → m2.log = m.log →
        (pre_vote_call m2 req).1 = (pre_vote_call m req).1) := by
  refine ⟨rfl, rfl, ?_⟩
  intro m2 h1 h2
  unfold ConsensusModule.pre_vote_call ConsensusModule.pre_vote
  rw [h1, h2]

/-- Witness for C6 at a concrete module and request, with the frame part
discharged at `mPendingVariant`. -/
theorem C6_pre_vote_purity_witness :
    (pre_vote_call mPending ⟨1, 2, 1, 1⟩).2 = mPending ∧
      (pre_vote_call mPendingVariant ⟨1, 2, 1, 1⟩).1 =
        (pre_vote_call mPending ⟨1, 2, 1, 1⟩).1 :=
  ⟨(C6_pre_vote_purity mPending ⟨1, 2, 1, 1⟩).1,
   (C6_pre_vote_purity mPending ⟨1, 2, 1, 1⟩).2.2 mPendingVariant rfl rfl⟩


/-! ### Well-formed-log lemmas -/

theorem Log.chainIdx_get : ∀ (es : List LogEntry) (i : Nat), Log.chainIdx i es = true →
    ∀ k (hk : k < es.length), (es.get ⟨k, hk⟩).index = i + k := by
  intro es
  induction es with
  | nil =>
      intro i h k hk
      simp at hk
  | cons e rest ih =>
      intro i h k hk
      rw [Log.chainIdx] at h
      rw [Bool.and_eq_true, decide_eq_true_eq] at h
      obtain ⟨h1, h2⟩ := h
      cases k with
      | zero => simpa using h1
      | succ k =>
          have hk2 : k < rest.length := by simpa using hk
          have := ih (i + 1) h2 k hk2
          rw [List.get_cons_succ]
          omega

theorem Log.chainIdx_find?_eq : ∀ (es : List LogEntry) (i : Nat),
    Log.chainIdx i es = true →
    ∀ k (hk : k < es.length),
    es.find? (fun e => e.index = i + k) = some (es.get ⟨k, hk⟩) := by
  intro es
  induction es with
  | nil =>
      intro i h k hk
      simp at hk
  | cons e rest ih =>
      intro i h k hk
      rw [Log.chainIdx] at h
      rw [Bool.and_eq_true, decide_eq_true_eq] at h
      obtain ⟨h1, h2⟩ := h
      cases k with
      | zero =>
          rw [List.find?_cons_of_pos _ (by simp [h1])]
          rfl
      | succ k =>
          rw [List.find?_cons_of_neg _ (by simp [h1])]
          have hk2 : k < rest.length := by simpa using hk
          have hrec := ih (i + 1) h2 k hk2
          have heq : i + (k + 1) = (i + 1) + k := by omega
          rw [List.get_cons_succ, heq]
          exact hrec

theorem Log.chainIdx_find?_eq_none : ∀ (es : List LogEntry) (i : Nat),
    Log.chainIdx i es = true →
    ∀ j, (j < i ∨ i + es.length ≤ j) →
    es.find? (fun e => e.index = j) = none := by
  intro es
  induction es with
  | nil =>
      intro i h j hj
      rfl
  | cons e rest ih =>
      intro i h j hj
      rw [Log.chainIdx] at h
      rw [Bool.and_eq_true, decide_eq_true_eq] at h
      obtain ⟨h1, h2⟩ := h
      have hne : ¬ e.index = j := by
        rcases hj with hj | hj
        · omega
        · simp only [List.length_cons] at hj
          omega
      rw [List.find?_cons_of_neg _ (by simpa using hne)]
      refine ih (i + 1) h2 j ?_
      rcases hj with hj | hj
      · omega
      · simp only [List.length_cons] at hj
        omega

theorem Log.WF_start_pos (l : Log) (h : l.WFb = true) : 1 ≤ l.startIdx := by
  unfold Log.startIdx
  unfold Log.WFb at h
  cases hes : l.entries with
  | nil => simp [hes]
  | cons e rest =>
      rw [hes] at h
      rw [Bool.and_eq_true, decide_eq_true_eq] at h
      simp [hes, h.1]

theorem Log.WF_chain (l : Log) (h : l.WFb = true) :
    Log.chainIdx l.startIdx l.entries = true := by
  unfold Log.startIdx
  unfold Log.WFb at h
  cases hes : l.entries with
  | nil => simp [hes, Log.chainIdx]
  | cons e rest =>
      rw [hes] at h
      rw [Bool.and_eq_true] at h
      simpa [hes] using h.2

theorem Log.WF_last_index (l : Log) (h : l.WFb = true) (hne : l.entries ≠ []) :
    l.last_index = some (l.startIdx + l.entries.length - 1) := by
  have hlen : 0 < l.entries.length := List.length_pos.2 hne
  have hget := List.getLast?_eq_getLast l.entries hne
  have hidx := Log.chainIdx_get l.entries l.startIdx (Log.WF_chain l h)
    (l.entries.length - 1) (by omega)
  have hgl : l.entries.getLast hne = l.entries.get ⟨l.entries.length - 1, by omega⟩ :=
    List.getLast_eq_get l.entries hne
  rw [Log.last_index, hget, hgl]
  simp only [Option.map_some', Option.some.injEq]
  rw [hidx]
  omega

theorem Log.WF_entryAt_get (l : Log) (h : l.WFb = true) (k : Nat)
    (hk : k < l.entries.length) :
    l.entryAt (l.startIdx + k) = some (l.entries.get ⟨k, hk⟩) := by
  unfold Log.entryAt
  exact Log.chainIdx_find?_eq l.entries l.startIdx (Log.WF_chain l h) k hk

theorem Log.WF_entryAt_none (l : Log) (h : l.WFb = true) (j : Nat)
    (hj : j < l.startIdx ∨ l.startIdx + l.entries.length ≤ j) :
    l.entryAt j = none := by
  unfold Log.entryAt
  exact Log.chainIdx_find?_eq_none l.entries l.startIdx (Log.WF_chain l h) j hj

/-- Under well-formedness, `termAt` is `some` exactly on `{0} ∪ [start, start+len)`. -/
theorem Log.WF_termAt_isSome_iff (l : Log) (h : l.WFb = true) (j : Nat) :
    (l.termAt j).isSome = true ↔
      (j = 0 ∨ (l.startIdx ≤ j ∧ j < l.startIdx + l.entries.length)) := by
  unfold Log.termAt
  by_cases hj : j = 0
  · simp [hj]
  · rw [if_neg hj]
    constructor
    · intro hs
      rcases Nat.lt_or_ge j l.startIdx with hlt | hge
      · rw [Log.WF_entryAt_none l h j (Or.inl hlt)] at hs
        simp at hs
      · rcases Nat.lt_or_ge j (l.startIdx + l.entries.length) with h2 | h2
        · exact Or.inr ⟨hge, h2⟩
        · rw [Log.WF_entryAt_none l h j (Or.inr h2)] at hs
          simp at hs
    · rintro (rfl | ⟨h1, h2⟩)
      · exact absurd rfl hj
      · have hk : j - l.startIdx < l.entries.length := by omega
        have := Log.WF_entryAt_get l h (j - l.startIdx) hk
        have hj2 : l.startIdx + (j - l.startIdx) = j := by omega
        rw [hj2] at this
        simp [this]

theorem Log.WF_termAt_get (l : Log) (h : l.WFb = true) (j : Nat)
    (h1 : l.startIdx ≤ j) (h2 : j < l.startIdx + l.entries.length) :
    l.termAt j = some ((l.entries.get ⟨j - l.startIdx, by omega⟩).term) := by
  unfold Log.termAt
  have hj : ¬ j = 0 := by
    have := Log.WF_start_pos l h
    omega
  rw [if_neg hj]
  have hk : j - l.startIdx < l.entries.length := by omega
  have := Log.WF_entryAt_get l h (j - l.startIdx) hk
  have hj2 : l.startIdx + (j - l.startIdx) = j := by omega
  rw [hj2] at this
  simp [this]

theorem termsChainB_step : ∀ (es : List LogEntry), termsChainB es = true →
    ∀ k (hk : k + 1 < es.length),
      (es.get ⟨k, by omega⟩).term ≤ (es.get ⟨k + 1, hk⟩).term := by
  intro es
  induction es with
  | nil =>
      intro h k hk
      simp at hk
  | cons a rest ih =>
      intro h k hk
      cases rest with
      | nil => simp at hk
      | cons b rest2 =>
          rw [termsChainB, Bool.and_eq_true, decide_eq_true_eq] at h
          cases k with
          | zero => exact h.1
          | succ k =>
              have hk2 : k + 1 < (b :: rest2).length := by simpa using hk
              exact ih h.2 k hk2

theorem termsChain_get_mono (es : List LogEntry)
    (h : termsChainB es = true) (k1 k2 : Nat)
    (h1 : k1 < es.length) (h2 : k2 < es.length) (hle : k1 ≤ k2) :
    (es.get ⟨k1, h1⟩).term ≤ (es.get ⟨k2, h2⟩).term := by
  induction k2 with
  | zero =>
      have : k1 = 0 := by omega
      subst this
      rfl
  | succ k2 ih =>
      rcases Nat.lt_or_ge k1 (k2 + 1) with hlt | hge
      · have hk2 : k2 < es.length := by omega
        exact le_trans (ih hk2 (by omega)) (termsChainB_step es h k2 h2)
      · have : k1 = k2 + 1 := by omega
        subst this
        rfl

/-- Under well-formedness and term monotonicity, `termAt` is monotone. -/
theorem Log.WF_termAt_mono (l : Log) (h : l.WFb = true) (hm : l.termsMonoB = true)
    (i j a b : Nat) (hij : i ≤ j) (ha : l.termAt i = some a) (hb : l.termAt j = some b) :
    a ≤ b := by
  by_cases hi : i = 0
  · subst hi
    rw [Log.termAt_zero] at ha
    injection ha with ha
    omega
  · have hj : ¬ j = 0 := by omega
    have hsi := (Log.WF_termAt_isSome_iff l h i).1 (by simp [ha])
    have hsj := (Log.WF_termAt_isSome_iff l h j).1 (by simp [hb])
    rcases hsi with rfl | ⟨hi1, hi2⟩
    · exact absurd rfl hi
    rcases hsj with rfl | ⟨hj1, hj2⟩
    · exact absurd rfl hj
    rw [Log.WF_termAt_get l h i hi1 hi2] at ha
    rw [Log.WF_termAt_get l h j hj1 hj2] at hb
    injection ha with ha
    injection hb with hb
    rw [← ha, ← hb]
    have hmono : termsChainB l.entries = true := hm
    exact termsChain_get_mono l.entries hmono (i - l.startIdx) (j - l.startIdx)
      (by omega) (by omega) (by omega)

/-! ### C3: `find_next_commit_index` -/

theorem fnciLoop_sound (m : ConsensusModule) (s : ServerLeaderState) :
    ∀ k ci, m.fnciLoop s k = some (some ci) →
      m.meta.commit_index < ci ∧ ci ≤ k ∧
      m.log.termAt ci = some m.meta.current_term ∧
      m.majority_size ≤ m.commitCount s ci := by
  intro k
  induction k with
  | zero =>
      intro ci h
      rw [ConsensusModule.fnciLoop] at h
      simp at h
  | succ k ih =>
      intro ci h
      rw [ConsensusModule.fnciLoop] at h
      by_cases h1 : k + 1 ≤ m.meta.commit_index
      · rw [if_pos h1] at h
        simp at h
      · rw [if_neg h1] at h
        cases hterm : m.log.termAt (k + 1) with
        | none =>
            rw [hterm] at h
            exact Option.noConfusion h
        | some t =>
            simp only [hterm] at h
            by_cases h4 : t < m.meta.current_term
            · rw [if_pos h4] at h
              simp at h
            · rw [if_neg h4] at h
              by_cases h5 : t = m.meta.current_term
              · rw [if_pos h5] at h
                by_cases h6 : m.majority_size ≤ m.commitCount s (k + 1)
                · rw [if_pos h6] at h
                  simp only [Option.some.injEq] at h
                  subst h
                  refine ⟨by omega, le_refl _, ?_, h6⟩
                  rw [hterm, h5]
                · rw [if_neg h6] at h
                  have := ih ci h
                  exact ⟨this.1, by omega, this.2.2⟩
              · rw [if_neg h5] at h
                have := ih ci h
                exact ⟨this.1, by omega, this.2.2⟩

theorem fnciLoop_complete (m : ConsensusModule) (s : ServerLeaderState)
    (hWF : m.log.WFb = true) (hmono : m.log.termsMonoB = true) :
    ∀ k, m.fnciLoop s k = some none →
      ∀ ci, m.meta.commit_index < ci → ci ≤ k →
        m.log.termAt ci = some m.meta.current_term →
        m.commitCount s ci < m.majority_size := by
  intro k
  induction k with
  | zero =>
      intro h ci h1 h2 h3
      omega
  | succ k ih =>
      intro h ci h1 h2 h3
      rw [ConsensusModule.fnciLoop] at h
      by_cases hc : k + 1 ≤ m.meta.commit_index
      · omega
      · rw [if_neg hc] at h
        cases hterm : m.log.termAt (k + 1) with
        | none =>
            rw [hterm] at h
            exact Option.noConfusion h
        | some t =>
            simp only [hterm] at h
            by_cases h4 : t < m.meta.current_term
            · rcases Nat.lt_or_ge ci (k + 1) with hci | hci
              · have := Log.WF_termAt_mono m.log hWF hmono ci (k + 1) _ _ (by omega) h3 hterm
                omega
              · have heq : ci = k + 1 := by omega
                subst heq
                rw [hterm] at h3
                injection h3 with h3
                omega
            · rw [if_neg h4] at h
              by_cases h5 : t = m.meta.current_term
              · rw [if_pos h5] at h
                by_cases h6 : m.majority_size ≤ m.commitCount s (k + 1)
                · rw [if_pos h6] at h
                  simp at h
                · rw [if_neg h6] at h
                  rcases Nat.lt_or_ge ci (k + 1) with hci | hci
                  · exact ih h ci h1 (by omega) h3
                  · have heq : ci = k + 1 := by omega
                    subst heq
                    omega
              · rw [if_neg h5] at h
                rcases Nat.lt_or_ge ci (k + 1) with hci | hci
                · exact ih h ci h1 (by omega) h3
                · have heq : ci = k + 1 := by omega
                  subst heq
                  rw [hterm] at h3
                  injection h3 with h3
                  omega

theorem Log.WF_termAt_le_last (l : Log) (h : l.WFb = true) (j a : Nat) (hj : 1 ≤ j)
    (ha : l.termAt j = some a) : j ≤ l.last_index.getD 0 := by
  have hs := (Log.WF_termAt_isSome_iff l h j).1 (by simp [ha])
  rcases hs with rfl | ⟨h1, h2⟩
  · omega
  · have hne : l.entries ≠ [] := by
      intro hnil
      rw [hnil] at h2
      simp at h2
      omega
    rw [Log.WF_last_index l h hne]
    simp only [Option.getD_some]
    omega

/-- C3: on a leader, `find_next_commit_index` returns `some ci` only when the
log entry at `ci` carries exactly `current_term` (never a different term),
`ci` lies above `commit_index`, and the count of voting members that durably
match `ci` (the leader itself iff `log.match_index() ≥ ci`, every other
member with a progress entry iff its `match_index ≥ ci`) reaches
`majority_size()`; and (over a well-formed, term-monotone log) it returns
`none` when no index above `commit_index` satisfies that condition. -/
theorem C3_find_next_commit_index_correct (m : ConsensusModule) (s : ServerLeaderState) :
    (∀ ci, m.find_next_commit_index s = some (some ci) →
        m.meta.commit_index < ci ∧
        m.log.termAt ci = some m.meta.current_term ∧
        m.majority_size ≤ m.commitCount s ci) ∧
    (m.log.WFb = true → m.log.termsMonoB = true →
      m.find_next_commit_index s = some none →
      ∀ ci, m.meta.commit_index < ci →
        m.log.termAt ci = some m.meta.current_term →
        m.commitCount s ci < m.majority_size) := by
  constructor
  · intro ci h
    have := fnciLoop_sound m s (m.log.last_index.getD 0) ci h
    exact ⟨this.1, this.2.2⟩
  · intro hWF hmono h ci h1 h3
    have hle : ci ≤ m.log.last_index.getD 0 :=
      Log.WF_termAt_le_last m.log hWF ci _ (by omega) h3
    exact fnciLoop_complete m s hWF hmono (m.log.last_index.getD 0) h ci h1 hle h3

/-- Witness for C3 at two concrete leader states: `mCommitReady` commits
index 1 (sound direction), `mCommitShort` commits nothing (none direction,
instantiated at index 1). -/
theorem C3_find_next_commit_index_correct_witness :
    (mCommitReady.meta.commit_index < 1 ∧
      mCommitReady.log.termAt 1 = some mCommitReady.meta.current_term ∧
      mCommitReady.majority_size ≤ mCommitReady.commitCount ⟨[]⟩ 1) ∧
    mCommitShort.commitCount ⟨[]⟩ 1 < mCommitShort.majority_size :=
  ⟨(C3_find_next_commit_index_correct mCommitReady ⟨[]⟩).1 1 (by decide),
   (C3_find_next_commit_index_correct mCommitShort ⟨[]⟩).2 (by decide) (by decide)
     (by decide) 1 (by decide) (by decide)⟩

/-! ### Frame lemmas for the handler building blocks -/

theorem update_commited_some (m : ConsensusModule) (i : Nat) (t : Tick)
    (m' : ConsensusModule) (t' : Tick) (h : m.update_commited i t = some (m', t')) :
    m'.meta.current_term = m.meta.current_term ∧
    m.meta.commit_index < i ∧ m'.meta.commit_index = i ∧
    m'.meta.voted_for = m.meta.voted_for ∧
    m'.log = m.log ∧ m'.state = m.state ∧ m'.id = m.id ∧ m'.rand = m.rand ∧
    m'.config.value = m.config.value ∧ m'.config.last_applied = m.config.last_applied := by
  unfold ConsensusModule.update_commited at h
  by_cases hlt : m.meta.commit_index < i
  · rw [if_pos hlt] at h
    simp only [Option.some.injEq, Prod.mk.injEq] at h
    obtain ⟨hm, -⟩ := h
    subst hm
    unfold ConfigurationStateMachine.commit
    cases hp : m.config.pending with
    | none => simp [hp, hlt]
    | some p =>
        by_cases hc : p.last_change ≤ i
        · simp [hp, hc, hlt]
        · simp [hp, hc, hlt]
  · rw [if_neg hlt] at h
    exact Option.noConfusion h

theorem replicate_entries_some (m : ConsensusModule) (t : Tick) (d : Nat)
    (m' : ConsensusModule) (t' : Tick) (h : m.replicate_entries t = some (d, m', t')) :
    m'.meta = m.meta ∧ m'.log = m.log ∧ m'.config = m.config ∧
    m'.id = m.id ∧ m'.rand = m.rand ∧ m'.state.isLeaderB = true := by
  unfold ConsensusModule.replicate_entries at h
  split at h
  · dsimp only [] at h
    split at h
    · exact Option.noConfusion h
    · simp only [Option.some.injEq, Prod.mk.injEq] at h
      obtain ⟨-, hm, -⟩ := h
      subst hm
      simp [ConsensusModule.withState, ServerState.isLeaderB]
  · exact Option.noConfusion h

/-! ### Monotonicity and invariant preservation of the cycle block -/

theorem VotedInv_follower (m : ConsensusModule) (h : m.state.isFollowerB = true) :
    VotedInv m := by
  unfold VotedInv
  cases hs : m.state <;> simp_all [ServerState.isFollowerB]

theorem VotedInv_same (m m' : ConsensusModule) (he : m'.state = m.state)
    (hv : m'.meta.voted_for = m.meta.voted_for) (hid : m'.id = m.id)
    (h : VotedInv m) : VotedInv m' := by
  unfold VotedInv at h ⊢
  rw [he]
  cases hs : m.state with
  | Follower s => simp
  | Candidate s =>
      rw [hs] at h
      simp only [] at h ⊢
      rw [hv, hid]
      exact h
  | Leader s =>
      rw [hs] at h
      simp only [] at h ⊢
      rw [hv, hid]
      exact h

theorem VotedInv_leader (m m' : ConsensusModule) (hl' : m'.state.isLeaderB = true)
    (hl : m.state.isLeaderB = true)
    (hv : m'.meta.voted_for = m.meta.voted_for) (hid : m'.id = m.id)
    (h : VotedInv m) : VotedInv m' := by
  unfold VotedInv at h ⊢
  cases hs : m'.state <;> simp [hs, ServerState.isLeaderB] at hl' ⊢
  cases hs2 : m.state <;> rw [hs2] at h <;> simp [hs2, ServerState.isLeaderB] at hl
  · rw [hv, hid]
    exact h

theorem VotedInv_withState_leader (m : ConsensusModule) (s' : ServerLeaderState)
    (hv : m.meta.voted_for = some m.id) : VotedInv (m.withState (.Leader s')) := by
  unfold VotedInv ConsensusModule.withState
  simpa using hv

theorem VotedInv_candidate_voted (m : ConsensusModule) (s : ServerCandidateState)
    (hs : m.state = .Candidate s) (h : VotedInv m) : m.meta.voted_for = some m.id := by
  unfold VotedInv at h
  rw [hs] at h
  exact h

theorem blockStep_frame : ∀ (n : Nat) (c : BlockCall) (m : ConsensusModule) (t : Tick)
    (r : ConsensusModule × Tick × Except ProposeError LogPosition),
    blockStep n c m t = some r →
    m.meta.current_term ≤ r.1.meta.current_term ∧
    m.meta.commit_index ≤ r.1.meta.commit_index ∧
    r.1.id = m.id ∧ (VotedInv m → VotedInv r.1) := by
  intro n
  induction n with
  | zero =>
      intro c m t r h
      exact Option.noConfusion h
  | succ n ih =>
      intro c m t r h
      cases c with
      | cycleCall =>
          rw [blockStep] at h
          dsimp only [] at h
          split at h
          · injection h with h
            subst h
            exact ⟨le_refl _, le_refl _, rfl, fun hv => hv⟩
          · split at h
            -- Follower
            · split at h
              · -- cannot be leader
                split at h
                · exact Option.noConfusion h
                · injection h with h
                  subst h
                  refine ⟨le_refl _, le_refl _, rfl, fun _ => ?_⟩
                  exact VotedInv_follower _ (by
                    simp [ConsensusModule.withState, ConsensusModule.new_follower,
                      ConsensusModule.drawTimeout, ServerState.isFollowerB])
              · split at h
                · exact ih _ m t r h
                · injection h with h
                  subst h
                  exact ⟨le_refl _, le_refl _, rfl, fun hv => hv⟩
            -- Candidate
            · rename_i s hst
              split at h
              · -- majority reached
                split at h
                · -- commit behind: propose then cycle
                  split at h
                  · rename_i res m2 t2 a hprop
                    have h1 := ih _ _ _ _ hprop
                    have h2 := ih _ _ _ _ h
                    simp only [ConsensusModule.withState] at h1
                    refine ⟨le_trans h1.1 h2.1, le_trans h1.2.1 h2.2.1, by
                      rw [h2.2.2.1, h1.2.2.1], fun hv => ?_⟩
                    refine h2.2.2.2 (h1.2.2.2 ?_)
                    exact VotedInv_withState_leader m _ (VotedInv_candidate_voted m s hst hv)
                  · exact Option.noConfusion h
                · -- no pending noop: straight to cycle
                  have h2 := ih _ _ _ _ h
                  simp only [ConsensusModule.withState] at h2
                  refine ⟨h2.1, h2.2.1, h2.2.2.1, fun hv => ?_⟩
                  exact h2.2.2.2
                    (VotedInv_withState_leader m _ (VotedInv_candidate_voted m s hst hv))
              · split at h
                · exact ih _ m t r h
                · injection h with h
                  subst h
                  exact ⟨le_refl _, le_refl _, rfl, fun hv => hv⟩
            -- Leader
            · rename_i s hst
              split at h
              · exact Option.noConfusion h
              · rename_i nci hnci
                split at h
                · exact Option.noConfusion h
                · rename_i m1 t1 hup
                  split at h
                  · exact Option.noConfusion h
                  · rename_i nh m2 t2 hrep
                    injection h with h
                    subst h
                    have hfacts :
                        m1.meta.current_term = m.meta.current_term ∧
                        m.meta.commit_index ≤ m1.meta.commit_index ∧
                        m1.meta.voted_for = m.meta.voted_for ∧
                        m1.state = m.state ∧ m1.id = m.id := by
                      split at hup
                      · have := update_commited_some m _ t m1 t1 hup
                        exact ⟨this.1, by omega, this.2.2.2.1, this.2.2.2.2.2.1,
                          this.2.2.2.2.2.2.1⟩
                      · injection hup with hup
                        injection hup with hm ht
                        rw [← hm]
                        exact ⟨rfl, le_refl _, rfl, rfl, rfl⟩
                    have hrepf := replicate_entries_some m1 t1 nh m2 t2 hrep
                    refine ⟨by rw [hrepf.1, hfacts.1], by rw [hrepf.1]; exact hfacts.2.1,
                      by rw [hrepf.2.2.2.1, hfacts.2.2.2.2], fun hv => ?_⟩
                    refine VotedInv_leader m1 m2 hrepf.2.2.2.2.2 ?_
                      (by rw [hrepf.1]) hrepf.2.2.2.1 ?_
                    · rw [hfacts.2.2.2.1, hst]
                      rfl
                    · exact VotedInv_same m m1 hfacts.2.2.2.1 hfacts.2.2.1
                        hfacts.2.2.2.2 hv
      | startElectionCall =>
          rw [blockStep] at h
          dsimp only [] at h
          split at h
          · exact Option.noConfusion h
          · by_cases hmi :
                (match m.state with
                 | .Candidate s => s.some_rejected
                 | _ => true) = true
            · simp only [hmi, if_true] at h
              have h3 := ih _ _ _ _ h
              simp only [ConsensusModule.drawTimeout, ConsensusModule.withState] at h3
              refine ⟨by simpa using le_trans (Nat.le_succ _) h3.1, h3.2.1,
                h3.2.2.1, fun hv => ?_⟩
              refine h3.2.2.2 ?_
              unfold VotedInv
              simp
            · rw [Bool.not_eq_true] at hmi
              simp only [hmi, Bool.false_eq_true, if_false] at h
              have h3 := ih _ _ _ _ h
              simp only [ConsensusModule.drawTimeout, ConsensusModule.withState] at h3
              refine ⟨h3.1, h3.2.1, h3.2.2.1, fun hv => ?_⟩
              refine h3.2.2.2 ?_
              cases hst : m.state with
              | Follower s =>
                  rw [hst] at hmi
                  simp at hmi
              | Leader s =>
                  rw [hst] at hmi
                  simp at hmi
              | Candidate s =>
                  have hvoted := VotedInv_candidate_voted m s hst hv
                  unfold VotedInv
                  simpa using hvoted
      | proposeEntryCall data =>
          cases data with
          | Noop =>
              rw [blockStep] at h
              dsimp only [] at h
              split at h
              · split at h
                · exact Option.noConfusion h
                ·
                  split at h
                  · exact Option.noConfusion h
                  · split at h
                    · exact Option.noConfusion h
                    · split at h
                      · exact Option.noConfusion h
                      · rename_i m2 t2 res hcy
                        injection h with h
                        subst h
                        have h3 := ih _ _ _ _ hcy
                        refine ⟨h3.1, h3.2.1, h3.2.2.1, fun hv => ?_⟩
                        exact h3.2.2.2 (VotedInv_same m _ rfl rfl rfl hv)
              · injection h with h
                subst h
                exact ⟨le_refl _, le_refl _, rfl, fun hv => hv⟩
              · injection h with h
                subst h
                exact ⟨le_refl _, le_refl _, rfl, fun hv => hv⟩
              · intro ch hch
                exact LogEntryData.noConfusion hch
          | Config ch =>
              rw [blockStep] at h
              dsimp only [] at h
              split at h
              · split at h
                · exact Option.noConfusion h
                · split at h
                  · split at h
                    · injection h with h
                      subst h
                      exact ⟨le_refl _, le_refl _, rfl, fun hv => hv⟩
                    · exact Option.noConfusion h
                  ·
                    split at h
                    · exact Option.noConfusion h
                    · split at h
                      · exact Option.noConfusion h
                      · split at h
                        · exact Option.noConfusion h
                        · rename_i m2 t2 res hcy
                          injection h with h
                          subst h
                          have h3 := ih _ _ _ _ hcy
                          refine ⟨h3.1, h3.2.1, h3.2.2.1, fun hv => ?_⟩
                          exact h3.2.2.2 (VotedInv_same m _ rfl rfl rfl hv)
              · injection h with h
                subst h
                exact ⟨le_refl _, le_refl _, rfl, fun hv => hv⟩
              · injection h with h
                subst h
                exact ⟨le_refl _, le_refl _, rfl, fun hv => hv⟩
          | Command bytes =>
              rw [blockStep] at h
              dsimp only [] at h
              split at h
              · split at h
                · exact Option.noConfusion h
                ·
                  split at h
                  · exact Option.noConfusion h
                  · split at h
                    · exact Option.noConfusion h
                    · split at h
                      · exact Option.noConfusion h
                      · rename_i m2 t2 res hcy
                        injection h with h
                        subst h
                        have h3 := ih _ _ _ _ hcy
                        refine ⟨h3.1, h3.2.1, h3.2.2.1, fun hv => ?_⟩
                        exact h3.2.2.2 (VotedInv_same m _ rfl rfl rfl hv)
              · injection h with h
                subst h
                exact ⟨le_refl _, le_refl _, rfl, fun hv => hv⟩
              · injection h with h
                subst h
                exact ⟨le_refl _, le_refl _, rfl, fun hv => hv⟩
              · intro ch hch
                exact LogEntryData.noConfusion hch

theorem become_follower_mono (n : Nat) (m : ConsensusModule) (t : Tick)
    (m1 : ConsensusModule) (t1 : Tick) (h : m.become_follower n t = some (m1, t1)) :
    m.meta.current_term ≤ m1.meta.current_term ∧
    m.meta.commit_index ≤ m1.meta.commit_index ∧ m1.id = m.id ∧ VotedInv m1 := by
  unfold ConsensusModule.become_follower ConsensusModule.cycle at h
  dsimp only [] at h
  cases hb : blockStep n .cycleCall
      (((m.new_follower t.time).2).withState (.Follower (m.new_follower t.time).1)) t with
  | none => rw [hb] at h; exact Option.noConfusion h
  | some r =>
      rw [hb] at h
      simp only [Option.map_some', Option.some.injEq] at h
      have hf := blockStep_frame n .cycleCall _ t r hb
      rw [Prod.mk.injEq] at h
      have hm1 : m1 = r.1 := h.1.symm
      subst hm1
      simp only [ConsensusModule.withState, ConsensusModule.new_follower,
        ConsensusModule.drawTimeout] at hf
      refine ⟨hf.1, hf.2.1, hf.2.2.1, ?_⟩
      refine hf.2.2.2 (VotedInv_follower _ ?_)
      simp [ConsensusModule.withState, ConsensusModule.new_follower,
        ConsensusModule.drawTimeout, ServerState.isFollowerB]

theorem observe_term_mono (n : Nat) (m : ConsensusModule) (T : Nat) (t : Tick)
    (m1 : ConsensusModule) (t1 : Tick) (h : m.observe_term n T t = some (m1, t1)) :
    m.meta.current_term ≤ m1.meta.current_term ∧
    m.meta.commit_index ≤ m1.meta.commit_index ∧ m1.id = m.id ∧
    (VotedInv m → VotedInv m1) := by
  unfold ConsensusModule.observe_term at h
  split at h
  · rename_i hlt
    have := become_follower_mono n _ _ _ _ h
    simp only [] at this
    exact ⟨by omega, this.2.1, this.2.2.1, fun _ => this.2.2.2⟩
  · simp only [Option.some.injEq, Prod.mk.injEq] at h
    obtain ⟨h1, h2⟩ := h
    subst h1
    exact ⟨le_refl _, le_refl _, rfl, fun hv => hv⟩

/-! ### Frame lemmas for append_entries -/

theorem ae_walk_frame : ∀ (es : List LogEntry) (m : ConsensusModule) (acc fn : Nat)
    (m4 : ConsensusModule), ae_walk m acc es = .ok (fn, m4) →
    m4.meta = m.meta ∧ m4.id = m.id ∧ m4.state = m.state ∧ m4.rand = m.rand := by
  intro es
  induction es with
  | nil =>
      intro m acc fn m4 h
      rw [ConsensusModule.ae_walk] at h
      injection h with h
      injection h with h1 h2
      rw [← h2]
      exact ⟨rfl, rfl, rfl, rfl⟩
  | cons e rest ih =>
      intro m acc fn m4 h
      rw [ConsensusModule.ae_walk] at h
      split at h
      · split at h
        · exact ih _ (acc + 1) fn m4 h
        · split at h
          · exact Except.noConfusion h
          · injection h with h
            injection h with h1 h2
            rw [← h2]
            exact ⟨rfl, rfl, rfl, rfl⟩
      · injection h with h
        injection h with h1 h2
        rw [← h2]
        exact ⟨rfl, rfl, rfl, rfl⟩

theorem ae_append_frame : ∀ (es : List LogEntry) (m : ConsensusModule) (t : Tick)
    (m5 : ConsensusModule) (t5 : Tick), ae_append m t es = some (m5, t5) →
    m5.meta = m.meta ∧ m5.id = m.id ∧ m5.state = m.state ∧ m5.rand = m.rand := by
  intro es
  induction es with
  | nil =>
      intro m t m5 t5 h
      rw [ConsensusModule.ae_append] at h
      simp only [Option.some.injEq, Prod.mk.injEq] at h
      rw [← h.1]
      exact ⟨rfl, rfl, rfl, rfl⟩
  | cons e rest ih =>
      intro m t m5 t5 h
      rw [ConsensusModule.ae_append] at h
      split at h
      · exact Option.noConfusion h
      · split at h
        · exact Option.noConfusion h
        · have hrec := ih _ _ _ _ h
          exact hrec

theorem AEFrame_refl (m : ConsensusModule) : AEFrame m m :=
  ⟨rfl, le_refl _, rfl, rfl, Or.inl rfl⟩

theorem ae_stage6_frame (m4 : ConsensusModule) (req : AppendEntriesRequest) (t : Tick)
    (fn : Nat) (m' : ConsensusModule) (t' : Tick)
    (res : Except String MatchConstraintAE)
    (h : ae_stage6 m4 req t fn = some (m', t', res)) : AEFrame m4 m' := by
  unfold ConsensusModule.ae_stage6 at h
  dsimp only [] at h
  split at h
  · exact Option.noConfusion h
  · rename_i m5 t5 hap
    have hf := ae_append_frame _ _ _ _ _ hap
    split at h
    · exact Option.noConfusion h
    · rename_i m6 t6 hstep
      injection h with h
      injection h with h1 h2
      subst h1
      have hstep2 : AEFrame m5 m6 := by
        split at hstep
        · split at hstep
          · have := update_commited_some m5 _ t5 m6 t6 hstep
            exact ⟨this.1, by omega, this.2.2.2.1, this.2.2.2.2.2.2.1.symm ▸ rfl,
              Or.inl this.2.2.2.2.2.1⟩
          · simp only [Option.some.injEq, Prod.mk.injEq] at hstep
            rw [← hstep.1]
            exact AEFrame_refl m5
        · simp only [Option.some.injEq, Prod.mk.injEq] at hstep
          rw [← hstep.1]
          exact AEFrame_refl m5
      obtain ⟨hs1, hs2, hs3, hs4, hs5⟩ := hstep2
      obtain ⟨hf1, hf2, hf3, hf4⟩ := hf
      have hmc : m5.meta.current_term = m4.meta.current_term := by rw [hf1]
      have hci : m5.meta.commit_index = m4.meta.commit_index := by rw [hf1]
      have hvf : m5.meta.voted_for = m4.meta.voted_for := by rw [hf1]
      refine ⟨by omega, by omega, by rw [hs3, hvf], by rw [hs4, hf2], ?_⟩
      rcases hs5 with he | ⟨ha, hb⟩
      · rw [he, hf3]
        exact Or.inl rfl
      · rw [hf3] at hb
        exact Or.inr ⟨ha, hb⟩

theorem ae_stage5_frame (m3 : ConsensusModule) (req : AppendEntriesRequest) (t : Tick)
    (m' : ConsensusModule) (t' : Tick) (res : Except String MatchConstraintAE)
    (h : ae_stage5 m3 req t = some (m', t', res)) : AEFrame m3 m' := by
  unfold ConsensusModule.ae_stage5 at h
  split at h
  · injection h with h
    injection h with h1 h2
    subst h1
    exact AEFrame_refl _
  · rename_i fn m4 hwalk
    have hw := ae_walk_frame _ _ _ _ _ hwalk
    have hframe : ∀ mm, AEFrame m4 mm → AEFrame m3 mm := by
      intro mm hh
      obtain ⟨h1, h2, h3, h4, h5⟩ := hh
      obtain ⟨hw1, hw2, hw3, hw4⟩ := hw
      have e1 : m4.meta.current_term = m3.meta.current_term := by rw [hw1]
      have e2 : m4.meta.commit_index = m3.meta.commit_index := by rw [hw1]
      have e3 : m4.meta.voted_for = m3.meta.voted_for := by rw [hw1]
      refine ⟨by omega, by omega, by rw [h3, e3], by rw [h4, hw2], ?_⟩
      rcases h5 with he | ⟨ha, hb⟩
      · rw [he, hw3]
        exact Or.inl rfl
      · rw [hw3] at hb
        exact Or.inr ⟨ha, hb⟩
    split at h
    · exact hframe _ (ae_stage6_frame _ _ _ _ _ _ _ h)
    · split at h
      · injection h with h
        injection h with h1 h2
        subst h1
        refine hframe _ (AEFrame_refl _)
      · exact hframe _ (ae_stage6_frame _ _ _ _ _ _ _ h)

theorem ae_stage4_frame (m3 : ConsensusModule) (req : AppendEntriesRequest) (t : Tick)
    (m' : ConsensusModule) (t' : Tick) (res : Except String MatchConstraintAE)
    (h : ae_stage4 m3 req t = some (m', t', res)) : AEFrame m3 m' := by
  unfold ConsensusModule.ae_stage4 at h
  split at h
  · injection h with h
    injection h with h1 h2
    subst h1
    exact AEFrame_refl _
  · split at h
    · split at h
      · injection h with h
        injection h with h1 h2
        subst h1
        exact AEFrame_refl _
      · exact ae_stage5_frame _ _ _ _ _ _ h
    · injection h with h
      injection h with h1 h2
      subst h1
      exact AEFrame_refl _

theorem ae_stage3_frame (m3 : ConsensusModule) (req : AppendEntriesRequest) (t : Tick)
    (m' : ConsensusModule) (t' : Tick) (res : Except String MatchConstraintAE)
    (h : ae_stage3 m3 req t = some (m', t', res)) : AEFrame m3 m' := by
  unfold ConsensusModule.ae_stage3 at h
  split at h
  · exact ae_stage4_frame _ _ _ _ _ _ h
  · split at h
    · injection h with h
      injection h with h1 h2
      subst h1
      exact AEFrame_refl _
    · split at h
      · injection h with h
        injection h with h1 h2
        subst h1
        exact AEFrame_refl _
      · exact ae_stage4_frame _ _ _ _ _ _ h

theorem ae_stage2_frame (m2 : ConsensusModule) (req : AppendEntriesRequest) (t : Tick)
    (m' : ConsensusModule) (t' : Tick) (res : Except String MatchConstraintAE)
    (h : ae_stage2 m2 req t = some (m', t', res)) : AEFrame m2 m' := by
  unfold ConsensusModule.ae_stage2 at h
  split at h
  · injection h with h
    injection h with h1 h2
    subst h1
    exact AEFrame_refl _
  · split at h
    · exact Option.noConfusion h
    · split at h
      · rename_i s hst
        have h3 := ae_stage3_frame _ _ _ _ _ _ h
        obtain ⟨h1, h2, hv, hid, hs⟩ := h3
        refine ⟨h1, h2, hv, hid, Or.inr ⟨?_, by rw [hst]; rfl⟩⟩
        rcases hs with he | ⟨ha, hb⟩
        · rw [he]
          simp [ConsensusModule.withState, ServerState.isFollowerB]
        · exact ha
      · split at h
        · injection h with h
          injection h with h1 h2
          subst h1
          exact AEFrame_refl _
        · exact ae_stage3_frame _ _ _ _ _ _ h
      · injection h with h
        injection h with h1 h2
        subst h1
        exact AEFrame_refl _

theorem AEFrame_votedInv (m2 m' : ConsensusModule) (hF : AEFrame m2 m')
    (hv : VotedInv m2) : VotedInv m' := by
  obtain ⟨-, -, hvf, hid, hs⟩ := hF
  rcases hs with he | ⟨ha, -⟩
  · exact VotedInv_same m2 m' he hvf hid hv
  · exact VotedInv_follower m' ha

theorem append_entries_frame (n : Nat) (m : ConsensusModule) (req : AppendEntriesRequest)
    (tick : Tick) (m' : ConsensusModule) (t' : Tick) (res : Except String MatchConstraintAE)
    (h : m.append_entries n req tick = some (m', t', res)) :
    m.meta.current_term ≤ m'.meta.current_term ∧
    m.meta.commit_index ≤ m'.meta.commit_index ∧ m'.id = m.id ∧
    (VotedInv m → VotedInv m') := by
  unfold ConsensusModule.append_entries at h
  split at h
  · exact Option.noConfusion h
  · rename_i m1 t1 hobs
    have hom := observe_term_mono n m req.term tick m1 t1 hobs
    split at h
    · exact Option.noConfusion h
    · rename_i m2 t2 hdem
      have hdm : m1.meta.current_term ≤ m2.meta.current_term ∧
          m1.meta.commit_index ≤ m2.meta.commit_index ∧ m2.id = m1.id ∧
          (VotedInv m1 → VotedInv m2) := by
        split at hdem
        · have := become_follower_mono n m1 t1 m2 t2 hdem
          exact ⟨this.1, this.2.1, this.2.2.1, fun _ => this.2.2.2⟩
        · simp only [Option.some.injEq, Prod.mk.injEq] at hdem
          obtain ⟨e1, e2⟩ := hdem
          subst e1
          exact ⟨le_refl _, le_refl _, rfl, fun hv => hv⟩
      have hst := ae_stage2_frame m2 req t2 m' t' res h
      obtain ⟨hs1, hs2, hs3, hs4, hs5⟩ := hst
      refine ⟨by omega, by omega, by rw [hs4, hdm.2.2.1, hom.2.2.1], fun hv => ?_⟩
      exact AEFrame_votedInv m2 m' ⟨hs1, hs2, hs3, hs4, hs5⟩
        (hdm.2.2.2 (hom.2.2.2 hv))

/-! ### Frame lemmas for the public handlers -/

theorem VotedInv_withState_candidate (m : ConsensusModule) (s' : ServerCandidateState)
    (hv : m.meta.voted_for = some m.id) : VotedInv (m.withState (.Candidate s')) := by
  unfold VotedInv ConsensusModule.withState
  simpa using hv

theorem VotedInv_leader_voted (m : ConsensusModule) (s : ServerLeaderState)
    (hs : m.state = .Leader s) (h : VotedInv m) : m.meta.voted_for = some m.id := by
  unfold VotedInv at h
  rw [hs] at h
  exact h

theorem cycle_frame (n : Nat) (m : ConsensusModule) (t : Tick)
    (m' : ConsensusModule) (t' : Tick) (h : m.cycle n t = some (m', t')) :
    m.meta.current_term ≤ m'.meta.current_term ∧
    m.meta.commit_index ≤ m'.meta.commit_index ∧ m'.id = m.id ∧
    (VotedInv m → VotedInv m') := by
  unfold ConsensusModule.cycle at h
  cases hb : blockStep n .cycleCall m t with
  | none => rw [hb] at h; exact Option.noConfusion h
  | some r =>
      rw [hb] at h
      simp only [Option.map_some', Option.some.injEq, Prod.mk.injEq] at h
      have hf := blockStep_frame n .cycleCall m t r hb
      rw [← h.1]
      exact hf

theorem start_election_frame (n : Nat) (m : ConsensusModule) (t : Tick)
    (m' : ConsensusModule) (t' : Tick) (h : m.start_election n t = some (m', t')) :
    m.meta.current_term ≤ m'.meta.current_term ∧
    m.meta.commit_index ≤ m'.meta.commit_index ∧ m'.id = m.id ∧
    (VotedInv m → VotedInv m') := by
  unfold ConsensusModule.start_election at h
  cases hb : blockStep n .startElectionCall m t with
  | none => rw [hb] at h; exact Option.noConfusion h
  | some r =>
      rw [hb] at h
      simp only [Option.map_some', Option.some.injEq, Prod.mk.injEq] at h
      have hf := blockStep_frame n .startElectionCall m t r hb
      rw [← h.1]
      exact hf

theorem request_vote_frame (n : Nat) (m : ConsensusModule) (req : RequestVoteRequest)
    (tick : Tick) (res : RequestVoteResponse) (m' : ConsensusModule) (t' : Tick)
    (h : m.request_vote n req tick = some (res, m', t')) :
    m.meta.current_term ≤ m'.meta.current_term ∧
    m.meta.commit_index ≤ m'.meta.commit_index ∧ m'.id = m.id ∧
    (VotedInv m → VotedInv m') := by
  unfold ConsensusModule.request_vote at h
  split at h
  · exact Option.noConfusion h
  · rename_i m1 t1 hobs
    have hom := observe_term_mono n m req.term tick m1 t1 hobs
    dsimp only [] at h
    split at h
    · split at h
      · rename_i s hst
        simp only [Option.some.injEq, Prod.mk.injEq] at h
        obtain ⟨-, h2, -⟩ := h
        rw [← h2]
        simp only [ConsensusModule.withState]
        refine ⟨hom.1, hom.2.1, hom.2.2.1, fun _ => ?_⟩
        exact VotedInv_follower _ (by simp [ServerState.isFollowerB])
      · exact Option.noConfusion h
    · simp only [Option.some.injEq, Prod.mk.injEq] at h
      obtain ⟨-, h2, -⟩ := h
      rw [← h2]
      exact hom

theorem request_vote_callback_frame (n : Nat) (m : ConsensusModule) (from_id : Nat)
    (resp : RequestVoteResponse) (tick : Tick) (m' : ConsensusModule) (t' : Tick)
    (h : m.request_vote_callback n from_id resp tick = some (m', t')) :
    m.meta.current_term ≤ m'.meta.current_term ∧
    m.meta.commit_index ≤ m'.meta.commit_index ∧ m'.id = m.id ∧
    (VotedInv m → VotedInv m') := by
  unfold ConsensusModule.request_vote_callback at h
  split at h
  · exact Option.noConfusion h
  · rename_i m1 t1 hobs
    have hom := observe_term_mono n m resp.term tick m1 t1 hobs
    split at h
    · simp only [Option.some.injEq, Prod.mk.injEq] at h
      obtain ⟨h2, -⟩ := h
      rw [← h2]
      exact hom
    · split at h
      · simp only [Option.some.injEq, Prod.mk.injEq] at h
        obtain ⟨h2, -⟩ := h
        rw [← h2]
        exact hom
      · split at h
        · rename_i s hst
          have hcy := cycle_frame n _ t1 m' t' h
          simp only [ConsensusModule.withState] at hcy
          refine ⟨le_trans hom.1 hcy.1, le_trans hom.2.1 hcy.2.1,
            by rw [hcy.2.2.1, hom.2.2.1], fun hv => ?_⟩
          refine hcy.2.2.2 ?_
          have hvote := VotedInv_candidate_voted m1 s hst (hom.2.2.2 hv)
          exact VotedInv_withState_candidate m1 _ hvote
        · simp only [Option.some.injEq, Prod.mk.injEq] at h
          obtain ⟨h2, -⟩ := h
          rw [← h2]
          exact hom

theorem append_entries_noresponse_frame (m : ConsensusModule) (from_id : Nat)
    (tick : Tick) (m' : ConsensusModule) (t' : Tick)
    (h : m.append_entries_noresponse from_id tick = some (m', t')) :
    m.meta.current_term ≤ m'.meta.current_term ∧
    m.meta.commit_index ≤ m'.meta.commit_index ∧ m'.id = m.id ∧
    (VotedInv m → VotedInv m') := by
  unfold ConsensusModule.append_entries_noresponse at h
  split at h
  · rename_i s hst
    split at h
    · exact Option.noConfusion h
    · simp only [Option.some.injEq, Prod.mk.injEq] at h
      obtain ⟨h2, -⟩ := h
      rw [← h2]
      refine ⟨le_refl _, le_refl _, rfl, fun hv => ?_⟩
      exact VotedInv_withState_leader m _ (VotedInv_leader_voted m s hst hv)
  · simp only [Option.some.injEq, Prod.mk.injEq] at h
    obtain ⟨h2, -⟩ := h
    rw [← h2]
    exact ⟨le_refl _, le_refl _, rfl, fun hv => hv⟩

theorem timeout_now_frame (n : Nat) (m : ConsensusModule) (tick : Tick)
    (m' : ConsensusModule) (t' : Tick) (h : m.timeout_now n tick = some (m', t')) :
    m.meta.current_term ≤ m'.meta.current_term ∧
    m.meta.commit_index ≤ m'.meta.commit_index ∧ m'.id = m.id ∧
    (VotedInv m → VotedInv m') :=
  start_election_frame n m tick m' t' h

theorem append_entries_callback_frame (n : Nat) (m : ConsensusModule) (from_id : Nat)
    (last_index : Nat) (resp : AppendEntriesResponse) (tick : Tick)
    (m' : ConsensusModule) (t' : Tick)
    (h : m.append_entries_callback n from_id last_index resp tick = some (m', t')) :
    m.meta.current_term ≤ m'.meta.current_term ∧
    m.meta.commit_index ≤ m'.meta.commit_index ∧ m'.id = m.id ∧
    (VotedInv m → VotedInv m') := by
  unfold ConsensusModule.append_entries_callback at h
  split at h
  · exact Option.noConfusion h
  · rename_i m1 t1 hobs
    have hom := observe_term_mono n m resp.term tick m1 t1 hobs
    split at h
    · rename_i s hst
      split at h
      · exact Option.noConfusion h
      · rename_i progress hp
        split at h
        · dsimp only [] at h
          split at h
          · split at h
            · rename_i m3 t3 a hprop
              injection h with h
              injection h with h1 h2
              subst h1
              have hbf := blockStep_frame n _ _ t1 _ hprop
              simp only [ConsensusModule.withState] at hbf
              refine ⟨le_trans hom.1 hbf.1, le_trans hom.2.1 hbf.2.1,
                by rw [hbf.2.2.1, hom.2.2.1], fun hv => ?_⟩
              refine hbf.2.2.2 ?_
              exact VotedInv_withState_leader m1 _
                (VotedInv_leader_voted m1 s hst (hom.2.2.2 hv))
            · exact Option.noConfusion h
          · have hcy := cycle_frame n _ t1 m' t' h
            simp only [ConsensusModule.withState] at hcy
            refine ⟨le_trans hom.1 hcy.1, le_trans hom.2.1 hcy.2.1,
              by rw [hcy.2.2.1, hom.2.2.1], fun hv => ?_⟩
            refine hcy.2.2.2 ?_
            exact VotedInv_withState_leader m1 _
              (VotedInv_leader_voted m1 s hst (hom.2.2.2 hv))
        · split at h
          · exact Option.noConfusion h
          · have hcy := cycle_frame n _ t1 m' t' h
            simp only [ConsensusModule.withState] at hcy
            refine ⟨le_trans hom.1 hcy.1, le_trans hom.2.1 hcy.2.1,
              by rw [hcy.2.2.1, hom.2.2.1], fun hv => ?_⟩
            refine hcy.2.2.2 ?_
            exact VotedInv_withState_leader m1 _
              (VotedInv_leader_voted m1 s hst (hom.2.2.2 hv))
    · simp only [Option.some.injEq, Prod.mk.injEq] at h
      obtain ⟨h2, -⟩ := h
      rw [← h2]
      exact hom

/-! ### C4: monotonicity of current_term and commit_index -/

/-- C4: across every handler invocation that returns normally, both
`current_term` and `commit_index` after the call are at least their values
before the call (spec invariant I1 and P5/P6), at every fuel. -/
theorem C4_term_commit_monotone (n : Nat) (m : ConsensusModule) (tick : Tick) :
    (∀ req res m' t', m.request_vote n req tick = some (res, m', t') →
        m.meta.current_term ≤ m'.meta.current_term ∧
        m.meta.commit_index ≤ m'.meta.commit_index) ∧
    (∀ req m' t' res, m.append_entries n req tick = some (m', t', res) →
        m.meta.current_term ≤ m'.meta.current_term ∧
        m.meta.commit_index ≤ m'.meta.commit_index) ∧
    (∀ from_id resp m' t', m.request_vote_callback n from_id resp tick = some (m', t') →
        m.meta.current_term ≤ m'.meta.current_term ∧
        m.meta.commit_index ≤ m'.meta.commit_index) ∧
    (∀ from_id li resp m' t',
        m.append_entries_callback n from_id li resp tick = some (m', t') →
        m.meta.current_term ≤ m'.meta.current_term ∧
        m.meta.commit_index ≤ m'.meta.commit_index) ∧
    (∀ from_id m' t', m.append_entries_noresponse from_id tick = some (m', t') →
        m.meta.current_term ≤ m'.meta.current_term ∧
        m.meta.commit_index ≤ m'.meta.commit_index) ∧
    (∀ data m' t' res, m.propose_entry n data tick = some (m', t', res) →
        m.meta.current_term ≤ m'.meta.current_term ∧
        m.meta.commit_index ≤ m'.meta.commit_index) ∧
    (∀ m' t', m.cycle n tick = some (m', t') →
        m.meta.current_term ≤ m'.meta.current_term ∧
        m.meta.commit_index ≤ m'.meta.commit_index) ∧
    (∀ m' t', m.timeout_now n tick = some (m', t') →
        m.meta.current_term ≤ m'.meta.current_term ∧
        m.meta.commit_index ≤ m'.meta.commit_index) := by
  refine ⟨?_, ?_, ?_, ?_, ?_, ?_, ?_, ?_⟩
  · intro req res m' t' h
    have := request_vote_frame n m req tick res m' t' h
    exact ⟨this.1, this.2.1⟩
  · intro req m' t' res h
    have := append_entries_frame n m req tick m' t' res h
    exact ⟨this.1, this.2.1⟩
  · intro from_id resp m' t' h
    have := request_vote_callback_frame n m from_id resp tick m' t' h
    exact ⟨this.1, this.2.1⟩
  · intro from_id li resp m' t' h
    have := append_entries_callback_frame n m from_id li resp tick m' t' h
    exact ⟨this.1, this.2.1⟩
  · intro from_id m' t' h
    have := append_entries_noresponse_frame m from_id tick m' t' h
    exact ⟨this.1, this.2.1⟩
  · intro data m' t' res h
    have := blockStep_frame n (.proposeEntryCall data) m tick (m', t', res) h
    exact ⟨this.1, this.2.1⟩
  · intro m' t' h
    have := cycle_frame n m tick m' t' h
    exact ⟨this.1, this.2.1⟩
  · intro m' t' h
    have := timeout_now_frame n m tick m' t' h
    exact ⟨this.1, this.2.1⟩

/-- Witness for C4 at a concrete leader cycle that advances the commit index. -/
theorem C4_term_commit_monotone_witness :
    mCommitReady.meta.current_term ≤ c4res.1.meta.current_term ∧
      mCommitReady.meta.commit_index ≤ c4res.1.meta.commit_index :=
  (C4_term_commit_monotone 6 mCommitReady tick0).2.2.2.2.2.2.1 c4res.1 c4res.2 (by decide)


theorem new_votedInv (id : Nat) (meta : Metadata) (snap : ConfigurationSnapshot)
    (log : Log) (now : Nat) (rand : List Nat) (m : ConsensusModule)
    (h : ConsensusModule.new id meta snap log now rand = some m) : VotedInv m := by
  unfold ConsensusModule.new at h
  dsimp only [] at h
  split at h
  · exact Option.noConfusion h
  · split at h
    · exact Option.noConfusion h
    · injection h with h
      subst h
      unfold VotedInv
      simp

theorem reachable_votedInv (m : ConsensusModule) (h : Reachable m) : VotedInv m := by
  induction h with
  | init id meta snap log now rand m hnew => exact new_votedInv _ _ _ _ _ _ _ hnew
  | request_vote_step n m req tick res m' t' hr hstep ih =>
      exact (request_vote_frame n m req tick res m' t' hstep).2.2.2 ih
  | append_entries_step n m req tick m' t' res hr hstep ih =>
      exact (append_entries_frame n m req tick m' t' res hstep).2.2.2 ih
  | request_vote_callback_step n m from_id resp tick m' t' hr hstep ih =>
      exact (request_vote_callback_frame n m from_id resp tick m' t' hstep).2.2.2 ih
  | append_entries_callback_step n m from_id li resp tick m' t' hr hstep ih =>
      exact (append_entries_callback_frame n m from_id li resp tick m' t' hstep).2.2.2 ih
  | append_entries_noresponse_step m from_id tick m' t' hr hstep ih =>
      exact (append_entries_noresponse_frame m from_id tick m' t' hstep).2.2.2 ih
  | propose_entry_step n m data tick m' t' res hr hstep ih =>
      exact (blockStep_frame n (.proposeEntryCall data) m tick (m', t', res) hstep).2.2.2 ih
  | cycle_step n m tick m' t' hr hstep ih =>
      exact (cycle_frame n m tick m' t' hstep).2.2.2 ih
  | timeout_now_step n m tick m' t' hr hstep ih =>
      exact (timeout_now_frame n m tick m' t' hstep).2.2.2 ih

theorem pre_vote_granted_facts (m : ConsensusModule) (req : RequestVoteRequest)
    (h : (m.pre_vote req).vote_granted = true) :
    m.meta.current_term ≤ req.term ∧
      (m.meta.current_term < req.term ∨ m.meta.voted_for = none ∨
        m.meta.voted_for = some req.candidate_id) := by
  unfold ConsensusModule.pre_vote at h
  dsimp only [] at h
  split_ifs at h with h1 h2 h3
  · exact ⟨by omega, Or.inl h3⟩
  · rcases hv : m.meta.voted_for with _ | v
    · exact ⟨by omega, Or.inr (Or.inl rfl)⟩
    · rw [hv] at h
      simp only [decide_eq_true_eq] at h
      exact ⟨by omega, Or.inr (Or.inr (by simp only [hv, h]))⟩

theorem observe_term_ct_ge (n : Nat) (m : ConsensusModule) (T : Nat) (t : Tick)
    (m1 : ConsensusModule) (t1 : Tick) (h : m.observe_term n T t = some (m1, t1)) :
    T ≤ m1.meta.current_term := by
  unfold ConsensusModule.observe_term at h
  split at h
  · have := become_follower_mono n _ _ _ _ h
    simp only [] at this
    exact this.1
  · rename_i hge
    simp only [Option.some.injEq, Prod.mk.injEq] at h
    obtain ⟨h1, -⟩ := h
    subst h1
    omega

theorem request_vote_no_grant_panic (m : ConsensusModule) (hInv : VotedInv m)
    (n : Nat) (req : RequestVoteRequest) (tick : Tick)
    (hneq : req.candidate_id ≠ m.id)
    (m1 : ConsensusModule) (t1 : Tick)
    (hobs : m.observe_term n req.term tick = some (m1, t1)) :
    (m.request_vote n req tick).isSome = true := by
  have hom := observe_term_mono n m req.term tick m1 t1 hobs
  have hct := observe_term_ct_ge n m req.term tick m1 t1 hobs
  have hInv1 : VotedInv m1 := hom.2.2.2 hInv
  unfold ConsensusModule.request_vote
  rw [hobs]
  dsimp only []
  by_cases hg : (m1.pre_vote req).vote_granted = true
  · rw [if_pos hg]
    have hfacts := pre_vote_granted_facts m1 req hg
    have hvoted : m1.meta.voted_for = none ∨ m1.meta.voted_for = some req.candidate_id := by
      rcases hfacts.2 with hlt | hrest
      · omega
      · exact hrest
    cases hstate : m1.state with
    | Follower s => simp
    | Candidate s =>
        have := VotedInv_candidate_voted m1 s hstate hInv1
        rw [hom.2.2.1] at this
        rcases hvoted with hv | hv
        · rw [hv] at this
          exact Option.noConfusion this
        · rw [hv] at this
          injection this with this
          exact absurd this hneq
    | Leader s =>
        have := VotedInv_leader_voted m1 s hstate hInv1
        rw [hom.2.2.1] at this
        rcases hvoted with hv | hv
        · rw [hv] at this
          exact Option.noConfusion this
        · rw [hv] at this
          injection this with this
          exact absurd this hneq
  · rw [if_neg hg]
    simp

/-- C10: every reachable module state satisfies the role/vote invariant
`VotedInv` (a candidate or leader has voted for itself), and consequently a
`request_vote` whose candidate is another server can never hit the source's
"granted vote but did not transition back to being a follower" panic: once
`observe_term` has returned, the handler returns normally. -/
theorem C10_candidate_votes_self_and_no_grant_panic (m : ConsensusModule)
    (h : Reachable m) :
    VotedInv m ∧
      (∀ (n : Nat) (req : RequestVoteRequest) (tick : Tick)
        (m1 : ConsensusModule) (t1 : Tick), req.candidate_id ≠ m.id →
        m.observe_term n req.term tick = some (m1, t1) →
        (m.request_vote n req tick).isSome = true) := by
  have hInv := reachable_votedInv m h
  refine ⟨hInv, fun n req tick m1 t1 hneq hobs => ?_⟩
  exact request_vote_no_grant_panic m hInv n req tick hneq m1 t1 hobs

/-- Witness for C10 at a freshly constructed two-member module observing a
vote request from the other member at a newer term. -/
theorem C10_candidate_votes_self_and_no_grant_panic_witness :
    VotedInv c10m ∧ (c10m.request_vote 6 ⟨1, 2, 0, 0⟩ tick0).isSome = true := by
  have hr : Reachable c10m :=
    Reachable.init 1 ⟨0, none, 0⟩ ⟨0, ⟨[1, 2], []⟩⟩ ⟨[], none⟩ 0 [] c10m (by decide)
  have hmain := C10_candidate_votes_self_and_no_grant_panic c10m hr
  refine ⟨hmain.1, ?_⟩
  exact hmain.2 6 ⟨1, 2, 0, 0⟩ tick0 c10obs.1 c10obs.2 (by decide) (by decide)

theorem ae_stage6_ok (m4 : ConsensusModule) (req : AppendEntriesRequest) (t : Tick)
    (fn : Nat) (m' : ConsensusModule) (t' : Tick) (e : String)
    (h : ae_stage6 m4 req t fn = some (m', t', .error e)) : False := by
  unfold ConsensusModule.ae_stage6 at h
  dsimp only [] at h
  split at h
  · exact Option.noConfusion h
  · split at h
    · exact Option.noConfusion h
    · simp only [Option.some.injEq, Prod.mk.injEq] at h
      exact Except.noConfusion h.2.2

theorem ae_stage5_error_frame (m3 : ConsensusModule) (req : AppendEntriesRequest)
    (t : Tick) (m' : ConsensusModule) (t' : Tick) (e : String)
    (h : ae_stage5 m3 req t = some (m', t', .error e)) (hne : e ≠ notAfterMsg) :
    m' = m3 := by
  unfold ConsensusModule.ae_stage5 at h
  split at h
  · simp only [Option.some.injEq, Prod.mk.injEq] at h
    exact h.1.symm
  · split at h
    · exact (ae_stage6_ok _ _ _ _ _ _ _ h).elim
    · split at h
      · simp only [Option.some.injEq, Prod.mk.injEq] at h
        obtain ⟨-, -, h3⟩ := h
        injection h3 with h3
        exact absurd h3.symm hne
      · exact (ae_stage6_ok _ _ _ _ _ _ _ h).elim

theorem ae_stage4_error_frame (m3 : ConsensusModule) (req : AppendEntriesRequest)
    (t : Tick) (m' : ConsensusModule) (t' : Tick) (e : String)
    (h : ae_stage4 m3 req t = some (m', t', .error e)) (hne : e ≠ notAfterMsg) :
    m' = m3 := by
  unfold ConsensusModule.ae_stage4 at h
  split at h
  · simp only [Option.some.injEq, Prod.mk.injEq] at h
    exact h.1.symm
  · split at h
    · split at h
      · simp only [Option.some.injEq, Prod.mk.injEq] at h
        exact (Except.noConfusion h.2.2 : False).elim
      · exact ae_stage5_error_frame _ _ _ _ _ _ h hne
    · simp only [Option.some.injEq, Prod.mk.injEq] at h
      exact (Except.noConfusion h.2.2 : False).elim

theorem ae_stage3_error_frame (m3 : ConsensusModule) (req : AppendEntriesRequest)
    (t : Tick) (m' : ConsensusModule) (t' : Tick) (e : String)
    (h : ae_stage3 m3 req t = some (m', t', .error e)) (hne : e ≠ notAfterMsg) :
    m' = m3 := by
  unfold ConsensusModule.ae_stage3 at h
  split at h
  · exact ae_stage4_error_frame _ _ _ _ _ _ h hne
  · split at h
    · simp only [Option.some.injEq, Prod.mk.injEq] at h
      exact h.1.symm
    · split at h
      · simp only [Option.some.injEq, Prod.mk.injEq] at h
        exact h.1.symm
      · exact ae_stage4_error_frame _ _ _ _ _ _ h hne

theorem ae_stage2_error_frame (m2 : ConsensusModule) (req : AppendEntriesRequest)
    (t : Tick) (m' : ConsensusModule) (t' : Tick) (e : String)
    (h : ae_stage2 m2 req t = some (m', t', .error e)) (hne : e ≠ notAfterMsg) :
    m'.log = m2.log ∧ m'.config = m2.config ∧ m'.meta = m2.meta ∧
      req.term = m2.meta.current_term := by
  unfold ConsensusModule.ae_stage2 at h
  split at h
  · simp only [Option.some.injEq, Prod.mk.injEq] at h
    exact (Except.noConfusion h.2.2 : False).elim
  · split at h
    · exact Option.noConfusion h
    · rename_i hlt hne2
      have hterm : req.term = m2.meta.current_term := by omega
      split at h
      · have hm := ae_stage3_error_frame _ _ _ _ _ _ h hne
        rw [hm]
        exact ⟨rfl, rfl, rfl, hterm⟩
      · split at h
        · simp only [Option.some.injEq, Prod.mk.injEq] at h
          rw [← h.1]
          exact ⟨rfl, rfl, rfl, hterm⟩
        · have hm := ae_stage3_error_frame _ _ _ _ _ _ h hne
          rw [hm]
          exact ⟨rfl, rfl, rfl, hterm⟩
      · simp only [Option.some.injEq, Prod.mk.injEq] at h
        rw [← h.1]
        exact ⟨rfl, rfl, rfl, hterm⟩

theorem startElection_follower_ct (k : Nat) (m : ConsensusModule)
    (s : ServerFollowerState) (hs : m.state = .Follower s) (t : Tick)
    (r : ConsensusModule × Tick × Except ProposeError LogPosition)
    (h : blockStep k .startElectionCall m t = some r) :
    m.meta.current_term < r.1.meta.current_term := by
  cases k with
  | zero => rw [blockStep] at h; exact Option.noConfusion h
  | succ k =>
      rw [blockStep] at h
      dsimp only [] at h
      split at h
      · exact Option.noConfusion h
      · rw [hs] at h
        dsimp only [] at h
        split at h
        · have hf := blockStep_frame k .cycleCall _ _ r h
          simp only [ConsensusModule.withState, ConsensusModule.drawTimeout] at hf
          have h1 := hf.1
          simp only [] at h1
          omega
        · rename_i hcond
          exact absurd rfl hcond

theorem cycleStep_follower_cases (n : Nat) (m : ConsensusModule)
    (s : ServerFollowerState) (hs : m.state = .Follower s) (t : Tick)
    (r : ConsensusModule × Tick × Except ProposeError LogPosition)
    (h : blockStep n .cycleCall m t = some r) :
    (r.1.meta = m.meta ∧ r.1.log = m.log ∧ r.1.config = m.config) ∨
      m.meta.current_term < r.1.meta.current_term := by
  cases n with
  | zero => rw [blockStep] at h; exact Option.noConfusion h
  | succ k =>
      rw [blockStep] at h
      dsimp only [] at h
      split at h
      · simp only [Option.some.injEq] at h
        rw [← h]
        exact Or.inl ⟨rfl, rfl, rfl⟩
      · rw [hs] at h
        dsimp only [] at h
        split at h
        · split at h
          · exact Option.noConfusion h
          · simp only [Option.some.injEq] at h
            rw [← h]
            exact Or.inl ⟨rfl, rfl, rfl⟩
        · split at h
          · exact Or.inr (startElection_follower_ct k m s hs t r h)
          · simp only [Option.some.injEq] at h
            rw [← h]
            exact Or.inl ⟨rfl, rfl, rfl⟩

theorem become_follower_cases (n : Nat) (m : ConsensusModule) (t : Tick)
    (m1 : ConsensusModule) (t1 : Tick) (h : m.become_follower n t = some (m1, t1)) :
    (m1.meta = m.meta ∧ m1.log = m.log ∧ m1.config = m.config) ∨
      m.meta.current_term < m1.meta.current_term := by
  unfold ConsensusModule.become_follower ConsensusModule.cycle at h
  dsimp only [] at h
  cases hb : blockStep n .cycleCall
      (((m.new_follower t.time).2).withState (.Follower (m.new_follower t.time).1)) t with
  | none => rw [hb] at h; exact Option.noConfusion h
  | some r =>
      rw [hb] at h
      simp only [Option.map_some', Option.some.injEq, Prod.mk.injEq] at h
      have hc := cycleStep_follower_cases n _ (m.new_follower t.time).1 rfl t r hb
      simp only [ConsensusModule.withState, ConsensusModule.new_follower,
        ConsensusModule.drawTimeout] at hc
      rw [← h.1]
      exact hc

/-- C1 (amended): an `append_entries` call that returns a protocol error other
than the "does not follow" assertion -- in particular the refuse-to-truncate
error hit when a request entry conflicts with the local log at an index at or
below `commit_index` -- leaves the log, the configuration and the commit index
unchanged; `current_term` does not decrease but MAY increase (the claim's
"metadata unmodified" fails: `observe_term` persists the new term and clears
`voted_for` before the conflict is detected). -/
theorem C1_amended_refuse_preserves_log (n : Nat) (m : ConsensusModule)
    (req : AppendEntriesRequest) (tick : Tick) (m' : ConsensusModule) (t' : Tick)
    (e : String)
    (h : m.append_entries n req tick = some (m', t', .error e)) (hne : e ≠ notAfterMsg) :
    m'.log = m.log ∧ m'.config = m.config ∧
      m'.meta.commit_index = m.meta.commit_index ∧
      m.meta.current_term ≤ m'.meta.current_term := by
  have hmono : True := trivial
  unfold ConsensusModule.append_entries at h
  split at h
  · exact Option.noConfusion h
  · rename_i m1 t1 hobs
    split at h
    · exact Option.noConfusion h
    · rename_i m2 t2 hdem
      obtain ⟨hlog2, hcfg2, hmeta2, hterm2⟩ := ae_stage2_error_frame m2 req t2 m' t' e h hne
      have hom := observe_term_mono n m req.term tick m1 t1 hobs
      have hdc : (m2.meta = m1.meta ∧ m2.log = m1.log ∧ m2.config = m1.config) ∨
          (req.term = m1.meta.current_term ∧
            m1.meta.current_term < m2.meta.current_term) := by
        split at hdem
        · rename_i hcond
          rcases become_follower_cases n m1 t1 m2 t2 hdem with hl | hr
          · exact Or.inl hl
          · exact Or.inr ⟨hcond.1, hr⟩
        · simp only [Option.some.injEq, Prod.mk.injEq] at hdem
          rw [← hdem.1]
          exact Or.inl ⟨rfl, rfl, rfl⟩
      have hoc : (m1.log = m.log ∧ m1.config = m.config ∧
            m1.meta.commit_index = m.meta.commit_index) ∨
          req.term < m1.meta.current_term := by
        unfold ConsensusModule.observe_term at hobs
        split at hobs
        · rcases become_follower_cases n _ _ m1 t1 hobs with hl | hr
          · refine Or.inl ⟨hl.2.1, hl.2.2, ?_⟩
            rw [hl.1]
          · exact Or.inr hr
        · simp only [Option.some.injEq, Prod.mk.injEq] at hobs
          rw [← hobs.1]
          exact Or.inl ⟨rfl, rfl, rfl⟩
      have h12 : m1.meta.current_term ≤ m2.meta.current_term := by
        rcases hdc with ⟨he, -, -⟩ | ⟨-, hlt⟩
        · rw [he]
        · omega
      have hct' : m'.meta.current_term = m2.meta.current_term := by rw [hmeta2]
      rcases hoc with ⟨hL, hC, hI⟩ | hgt
      · rcases hdc with ⟨he2, hL2, hC2⟩ | ⟨heq, hlt⟩
        · have hci2 : m2.meta.commit_index = m1.meta.commit_index := by rw [he2]
          have hct2 : m2.meta.current_term = m1.meta.current_term := by rw [he2]
          have hci' : m'.meta.commit_index = m2.meta.commit_index := by rw [hmeta2]
          exact ⟨by rw [hlog2, hL2, hL], by rw [hcfg2, hC2, hC],
            by rw [hci', hci2, hI], by omega⟩
        · omega
      · omega

/-- C1 counterexample: follower 1 at term 1 with `commit_index = 2` over the
log `[(1,1),(2,1),(3,1)]` receives an `append_entries` from leader 2 at term 2
whose entry `(2,2)` conflicts at index `2 ≤ commit_index`.  The handler does
return the refuse-to-truncate error and leaves the log intact, but the
metadata IS modified: `observe_term` has already persisted `current_term = 2`
and cleared `voted_for`, contradicting the claim that metadata is unmodified
on this error path. -/
theorem C1_counterexample_metadata_modified :
    append_entries 6 mRefuse reqRefuse tick0 =
        some (c1res.1, c1res.2.1, .error refuseMsg) ∧
      c1res.1.log = mRefuse.log ∧ c1res.1.meta ≠ mRefuse.meta ∧
      c1res.1.meta.current_term = 2 ∧ c1res.1.meta.voted_for = none := by
  decide

/-- Witness for the amended C1 at the concrete refuse-to-truncate input. -/
theorem C1_amended_refuse_preserves_log_witness :
    c1res.1.log = mRefuse.log ∧ c1res.1.config = mRefuse.config ∧
      c1res.1.meta.commit_index = mRefuse.meta.commit_index ∧
      mRefuse.meta.current_term ≤ c1res.1.meta.current_term :=
  C1_amended_refuse_preserves_log 6 mRefuse reqRefuse tick0 c1res.1 c1res.2.1
    refuseMsg (by decide) (by decide)

theorem find?_filter_keep (p q : LogEntry → Bool)
    (himp : ∀ a, p a = true → q a = true) :
    ∀ l : List LogEntry, (l.filter q).find? p = l.find? p := by
  intro l
  induction l with
  | nil => simp
  | cons a rest ih =>
      by_cases hq : q a = true
      · rw [List.filter_cons_of_pos hq]
        by_cases hp : p a = true
        · rw [List.find?_cons_of_pos _ hp, List.find?_cons_of_pos _ hp]
        · rw [List.find?_cons_of_neg _ (by simpa using hp),
            List.find?_cons_of_neg _ (by simpa using hp)]
          exact ih
      · have hp : ¬ p a = true := fun hc => hq (himp a hc)
        rw [List.filter_cons_of_neg (by simpa using hq),
          List.find?_cons_of_neg _ (by simpa using hp)]
        exact ih

theorem Log.termAt_truncate_of_lt (l : Log) (i cut : Nat) (h : i < cut) :
    (l.truncate_suffix cut).termAt i = l.termAt i := by
  unfold Log.termAt Log.entryAt Log.truncate_suffix
  by_cases hi : i = 0
  · simp [hi]
  · rw [if_neg hi, if_neg hi]
    dsimp only []
    rw [find?_filter_keep (fun e => e.index = i) (fun e => decide (e.index < cut))
      (fun a ha => by simp at ha ⊢; omega)]

theorem Log.termAt_of_entries_append (l l' : Log) (es : List LogEntry)
    (he : l'.entries = l.entries ++ es) (i a : Nat) (h : l.termAt i = some a) :
    l'.termAt i = some a := by
  unfold Log.termAt Log.entryAt at h ⊢
  by_cases hi : i = 0
  · simpa [hi] using h
  · rw [if_neg hi] at h ⊢
    rw [he, List.find?_append]
    cases hf : l.entries.find? (fun e => e.index = i) with
    | none => rw [hf] at h; simp at h
    | some e =>
        rw [hf] at h
        exact h

theorem ae_append_entries_eq : ∀ (es : List LogEntry) (mm : ConsensusModule) (t : Tick)
    (m5 : ConsensusModule) (t5 : Tick), ae_append mm t es = some (m5, t5) →
    m5.log.entries = mm.log.entries ++ es := by
  intro es
  induction es with
  | nil =>
      intro mm t m5 t5 h
      rw [ConsensusModule.ae_append] at h
      simp only [Option.some.injEq, Prod.mk.injEq] at h
      rw [← h.1]
      simp
  | cons e rest ih =>
      intro mm t m5 t5 h
      rw [ConsensusModule.ae_append] at h
      split at h
      · exact Option.noConfusion h
      · split at h
        · exact Option.noConfusion h
        · have hrec := ih _ _ _ _ h
          simp only [Log.append] at hrec
          rw [hrec]
          simp

theorem sorted_chainIdx : ∀ (es : List LogEntry), ae_entries_sorted es = true →
    ∀ fst, es.head? = some fst → Log.chainIdx fst.index es = true := by
  intro es
  induction es with
  | nil =>
      intro h fst hf
      exact Option.noConfusion hf
  | cons a rest ih =>
      intro h fst hf
      injection hf with hf
      subst hf
      cases rest with
      | nil => simp [Log.chainIdx]
      | cons b r =>
          rw [ae_entries_sorted] at h
          rw [Bool.and_eq_true, Bool.and_eq_true, decide_eq_true_eq,
            decide_eq_true_eq] at h
          obtain ⟨⟨hab, hidx⟩, hrest⟩ := h
          have hb := ih hrest b rfl
          rw [Log.chainIdx, Bool.and_eq_true, decide_eq_true_eq]
          exact ⟨rfl, by rw [← hidx]; exact hb⟩

theorem chainIdx_drop : ∀ (fn : Nat) (es : List LogEntry) (i : Nat),
    Log.chainIdx i es = true → Log.chainIdx (i + fn) (es.drop fn) = true := by
  intro fn
  induction fn with
  | zero => intro es i h; simpa using h
  | succ k ih =>
      intro es i h
      cases es with
      | nil => simp [Log.chainIdx]
      | cons e rest =>
          rw [Log.chainIdx, Bool.and_eq_true] at h
          have := ih rest (i + 1) h.2
          rw [List.drop_succ_cons]
          have harith : i + 1 + k = i + (k + 1) := by omega
          rw [harith] at this
          exact this

theorem chainIdx_mem_index : ∀ (es : List LogEntry) (i : Nat),
    Log.chainIdx i es = true → ∀ e ∈ es, i ≤ e.index := by
  intro es
  induction es with
  | nil => intro i h e he; exact absurd he (List.not_mem_nil e)
  | cons a rest ih =>
      intro i h e he
      rw [Log.chainIdx, Bool.and_eq_true, decide_eq_true_eq] at h
      rcases List.mem_cons.1 he with rfl | hr
      · omega
      · have := ih (i + 1) h.2 e hr
        omega

theorem chain_filter_take : ∀ (es : List LogEntry) (i cut : Nat),
    Log.chainIdx i es = true →
    es.filter (fun e => e.index < cut) = es.take (cut - i) := by
  intro es
  induction es with
  | nil => intro i cut h; simp
  | cons e rest ih =>
      intro i cut h
      rw [Log.chainIdx, Bool.and_eq_true, decide_eq_true_eq] at h
      obtain ⟨hei, hch⟩ := h
      by_cases hc : e.index < cut
      · rw [List.filter_cons_of_pos (by simpa using hc)]
        have hk : cut - i = (cut - (i + 1)) + 1 := by omega
        rw [hk, List.take_succ_cons, ih (i + 1) cut hch]
      · rw [List.filter_cons_of_neg (by simpa using hc)]
        have hk : cut - i = 0 := by omega
        rw [hk, List.take_zero]
        rw [ih (i + 1) cut hch]
        have hz : cut - (i + 1) = 0 := by omega
        rw [hz, List.take_zero]

theorem ae_walk_skip_all : ∀ (es : List LogEntry) (mm : ConsensusModule) (acc : Nat),
    (∀ e ∈ es, mm.log.termAt e.index = some e.term) →
    ae_walk mm acc es = .ok (acc + es.length, mm) := by
  intro es
  induction es with
  | nil => intro mm acc h; rw [ConsensusModule.ae_walk]; simp
  | cons e rest ih =>
      intro mm acc h
      rw [ConsensusModule.ae_walk]
      rw [h e (List.mem_cons_self e rest)]
      dsimp only []
      rw [if_pos rfl]
      rw [ih mm (acc + 1) (fun x hx => h x (List.mem_cons_of_mem e hx))]
      have : acc + 1 + rest.length = acc + (e :: rest).length := by
        simp; omega
      rw [this]

theorem ae_walk_ok_inv : ∀ (es : List LogEntry) (mm : ConsensusModule) (acc : Nat)
    (fn : Nat) (m4 : ConsensusModule), ae_walk mm acc es = .ok (fn, m4) →
    acc ≤ fn ∧ fn - acc ≤ es.length ∧
    (∀ k, k < fn - acc → ∀ e, es[k]? = some e →
      mm.log.termAt e.index = some e.term) ∧
    ((fn - acc = es.length ∧ m4 = mm) ∨
     (∃ e rest, es.drop (fn - acc) = e :: rest ∧
       ((m4 = mm ∧ mm.log.termAt e.index = none) ∨
        (∃ t0, mm.log.termAt e.index = some t0 ∧ ¬ t0 = e.term ∧
          mm.meta.commit_index < e.index ∧
          m4 = { mm with config := mm.config.revert e.index, log := mm.log.truncate_suffix e.index })))) := by
  intro es
  induction es with
  | nil =>
      intro mm acc fn m4 h
      rw [ConsensusModule.ae_walk] at h
      injection h with h
      injection h with h1 h2
      subst h2
      refine ⟨by omega, by simp; omega, ?_, Or.inl ⟨by simp; omega, rfl⟩⟩
      intro k hk
      exact absurd hk (by omega)
  | cons e rest ih =>
      intro mm acc fn m4 h
      rw [ConsensusModule.ae_walk] at h
      split at h
      · rename_i t0 ht0
        split at h
        · rename_i hteq
          subst hteq
          obtain ⟨h1, h2, h3, h4⟩ := ih mm (acc + 1) fn m4 h
          refine ⟨by omega, by simp; omega, ?_, ?_⟩
          · intro k hk x hx
            cases k with
            | zero =>
                simp only [List.getElem?_cons_zero, Option.some.injEq] at hx
                rw [← hx]
                exact ht0
            | succ j =>
                simp only [List.getElem?_cons_succ] at hx
                exact h3 j (by omega) x hx
          · have hd : (e :: rest).drop (fn - acc) = rest.drop (fn - (acc + 1)) := by
              have : fn - acc = (fn - (acc + 1)) + 1 := by omega
              rw [this, List.drop_succ_cons]
            rcases h4 with ⟨hlen, hm⟩ | ⟨x, xs, hx, hcase⟩
            · exact Or.inl ⟨by simp; omega, hm⟩
            · exact Or.inr ⟨x, xs, by rw [hd]; exact hx, hcase⟩
        · rename_i hne
          split at h
          · exact Except.noConfusion h
          · rename_i hci
            injection h with h
            injection h with h1 h2
            subst h1
            refine ⟨by omega, by omega, ?_, ?_⟩
            · intro k hk
              exact absurd hk (by omega)
            · refine Or.inr ⟨e, rest, by simp, Or.inr ⟨t0, ht0, hne, by omega, h2.symm⟩⟩
      · rename_i ht0
        injection h with h
        injection h with h1 h2
        subst h1
        refine ⟨by omega, by omega, ?_, ?_⟩
        · intro k hk
          exact absurd hk (by omega)
        · exact Or.inr ⟨e, rest, by simp, Or.inl ⟨h2.symm, ht0⟩⟩

theorem ae_stage2_success_inv (m2 : ConsensusModule) (req : AppendEntriesRequest)
    (t : Tick) (m' : ConsensusModule) (t' : Tick) (mc : MatchConstraintAE)
    (h : ae_stage2 m2 req t = some (m', t', .ok mc)) (hsucc : mc.resp.success = true) :
    req.term = m2.meta.current_term ∧
    ∃ m3 : ConsensusModule, m3.log = m2.log ∧ m3.meta = m2.meta ∧
      ae_stage3 m3 req t = some (m', t', .ok mc) := by
  unfold ConsensusModule.ae_stage2 at h
  split at h
  · simp only [Option.some.injEq, Prod.mk.injEq] at h
    obtain ⟨-, -, h3⟩ := h
    injection h3 with h3
    rw [← h3] at hsucc
    simp at hsucc
  · split at h
    · exact Option.noConfusion h
    · rename_i hlt hne2
      have hterm : req.term = m2.meta.current_term := by omega
      split at h
      · refine ⟨hterm, _, ?_, ?_, h⟩ <;> rfl
      · split at h
        · simp only [Option.some.injEq, Prod.mk.injEq] at h
          exact (Except.noConfusion h.2.2 : False).elim
        · exact ⟨hterm, m2, rfl, rfl, h⟩
      · simp only [Option.some.injEq, Prod.mk.injEq] at h
        exact (Except.noConfusion h.2.2 : False).elim

theorem ae_stage3_success_inv (m3 : ConsensusModule) (req : AppendEntriesRequest)
    (t : Tick) (m' : ConsensusModule) (t' : Tick) (mc : MatchConstraintAE)
    (h : ae_stage3 m3 req t = some (m', t', .ok mc)) :
    ae_stage4 m3 req t = some (m', t', .ok mc) ∧
    ae_entries_sorted req.entries = true ∧
    ∀ fst, req.entries.head? = some fst →
      ¬ fst.term < req.prev_log_term ∧ fst.index = req.prev_log_index + 1 := by
  unfold ConsensusModule.ae_stage3 at h
  split at h
  · rename_i hent
    refine ⟨h, by rw [hent]; rfl, ?_⟩
    intro fst hf
    rw [hent] at hf
    exact Option.noConfusion hf
  · rename_i first rest hent
    split at h
    · simp only [Option.some.injEq, Prod.mk.injEq] at h
      exact (Except.noConfusion h.2.2 : False).elim
    · split at h
      · simp only [Option.some.injEq, Prod.mk.injEq] at h
        exact (Except.noConfusion h.2.2 : False).elim
      · rename_i hcond hsort
        rw [not_or] at hcond
        refine ⟨h, by revert hsort; cases ae_entries_sorted req.entries <;> simp, ?_⟩
        intro fst hf
        rw [hent] at hf
        injection hf with hf
        subst hf
        exact ⟨hcond.1, by have := hcond.2; omega⟩

theorem ae_stage4_success_inv (m3 : ConsensusModule) (req : AppendEntriesRequest)
    (t : Tick) (m' : ConsensusModule) (t' : Tick) (mc : MatchConstraintAE)
    (h : ae_stage4 m3 req t = some (m', t', .ok mc)) (hsucc : mc.resp.success = true) :
    m3.log.termAt req.prev_log_index = some req.prev_log_term ∧
    m3.log.first_index.getD 1 - 1 ≤ req.prev_log_index ∧
    ae_stage5 m3 req t = some (m', t', .ok mc) := by
  unfold ConsensusModule.ae_stage4 at h
  split at h
  · simp only [Option.some.injEq, Prod.mk.injEq] at h
    exact (Except.noConfusion h.2.2 : False).elim
  · rename_i hfi
    split at h
    · rename_i tm htm
      split at h
      · simp only [Option.some.injEq, Prod.mk.injEq] at h
        obtain ⟨-, -, h3⟩ := h
        injection h3 with h3
        rw [← h3] at hsucc
        simp at hsucc
      · rename_i hne
        have htm2 : tm = req.prev_log_term := by omega
        subst htm2
        exact ⟨htm, by omega, h⟩
    · simp only [Option.some.injEq, Prod.mk.injEq] at h
      obtain ⟨-, -, h3⟩ := h
      injection h3 with h3
      rw [← h3] at hsucc
      simp at hsucc

theorem ae_stage5_success_inv (m3 : ConsensusModule) (req : AppendEntriesRequest)
    (t : Tick) (m' : ConsensusModule) (t' : Tick) (mc : MatchConstraintAE)
    (h : ae_stage5 m3 req t = some (m', t', .ok mc)) :
    ∃ (fn : Nat) (m4 : ConsensusModule),
      ae_walk m3 0 req.entries = .ok (fn, m4) ∧
      ae_stage6 m4 req t fn = some (m', t', .ok mc) ∧
      ∀ nxt rest2, req.entries.drop fn = nxt :: rest2 →
        nxt.index = m4.log.last_index.getD 0 + 1 ∧ m4.log.last_term ≤ nxt.term := by
  unfold ConsensusModule.ae_stage5 at h
  split at h
  · simp only [Option.some.injEq, Prod.mk.injEq] at h
    exact (Except.noConfusion h.2.2 : False).elim
  · rename_i fn m4 hwalk
    split at h
    · rename_i hdrop
      refine ⟨fn, m4, hwalk, h, ?_⟩
      intro nxt rest2 hh
      rw [hdrop] at hh
      exact List.noConfusion hh
    · rename_i nxt rest2 hdrop
      split at h
      · simp only [Option.some.injEq, Prod.mk.injEq] at h
        exact (Except.noConfusion h.2.2 : False).elim
      · rename_i hcond
        rw [not_or] at hcond
        refine ⟨fn, m4, hwalk, h, ?_⟩
        intro nxt' rest2' hh
        rw [hdrop] at hh
        injection hh with hh1 hh2
        subst hh1
        have h1 := hcond.1
        have h2 := hcond.2
        exact ⟨by omega, by omega⟩

theorem ae_stage6_success_inv (m4 : ConsensusModule) (req : AppendEntriesRequest)
    (t : Tick) (fn : Nat) (m' : ConsensusModule) (t' : Tick) (mc : MatchConstraintAE)
    (h : ae_stage6 m4 req t fn = some (m', t', .ok mc)) :
    ∃ (m5 : ConsensusModule) (t5 : Tick),
      ae_append m4 t (req.entries.drop fn) = some (m5, t5) ∧
      m'.log = m5.log ∧
      min req.leader_commit (aeLastNew req fn) ≤ m'.meta.commit_index ∧
      mc.resp.success = true := by
  unfold ConsensusModule.ae_stage6 at h
  dsimp only [] at h
  split at h
  · exact Option.noConfusion h
  · rename_i m5 t5 hap
    split at h
    · exact Option.noConfusion h
    · rename_i m6 t6 hstep
      simp only [Option.some.injEq, Prod.mk.injEq] at h
      obtain ⟨h1, h2, h3⟩ := h
      injection h3 with h3
      have hmc : mc.resp.success = true := by rw [← h3]
      have hln : aeLastNew req fn =
          (match (req.entries.drop fn).getLast? with
           | some e => e.index
           | none => req.prev_log_index) := rfl
      refine ⟨m5, t5, hap, ?_, ?_, hmc⟩
      · rw [← h1]
        split at hstep
        · split at hstep
          · exact (update_commited_some _ _ _ _ _ hstep).2.2.2.2.1
          · simp only [Option.some.injEq, Prod.mk.injEq] at hstep
            rw [← hstep.1]
        · simp only [Option.some.injEq, Prod.mk.injEq] at hstep
          rw [← hstep.1]
      · rw [← h1, hln]
        split at hstep
        · rename_i hlt
          split at hstep
          · rename_i hlt2
            have hu := update_commited_some _ _ _ _ _ hstep
            have := hu.2.2.1
            omega
          · rename_i hge2
            simp only [Option.some.injEq, Prod.mk.injEq] at hstep
            obtain ⟨he, -⟩ := hstep
            rw [← he]
            omega
        · rename_i hge
          simp only [Option.some.injEq, Prod.mk.injEq] at hstep
          obtain ⟨he, -⟩ := hstep
          rw [← he]
          omega

theorem ae_stage6_empty (m4 : ConsensusModule) (req : AppendEntriesRequest) (t : Tick)
    (fn : Nat) (hdrop : req.entries.drop fn = [])
    (hci : min req.leader_commit req.prev_log_index ≤ m4.meta.commit_index) :
    ae_stage6 m4 req t fn = some (m4, t, .ok (aeOkResult m4 req)) := by
  unfold ConsensusModule.ae_stage6
  dsimp only []
  rw [hdrop]
  simp only [List.getLast?_nil]
  rw [ConsensusModule.ae_append]
  dsimp only []
  by_cases hcl : m4.meta.commit_index < req.leader_commit
  · rw [if_pos hcl, if_neg (by omega)]
    rfl
  · rw [if_neg hcl]
    rfl

theorem ae_stage3_redeliver (M3 : ConsensusModule) (req : AppendEntriesRequest)
    (t : Tick)
    (hprev : M3.log.termAt req.prev_log_index = some req.prev_log_term)
    (hall : ∀ e ∈ req.entries, M3.log.termAt e.index = some e.term)
    (hfirstidx : M3.log.first_index.getD 1 - 1 ≤ req.prev_log_index)
    (hsorted : ae_entries_sorted req.entries = true)
    (hhead : ∀ fst, req.entries.head? = some fst →
        ¬ fst.term < req.prev_log_term ∧ fst.index = req.prev_log_index + 1)
    (hci : min req.leader_commit req.prev_log_index ≤ M3.meta.commit_index) :
    ae_stage3 M3 req t = some (M3, t, .ok (aeOkResult M3 req)) := by
  have hwalk := ae_walk_skip_all req.entries M3 0 hall
  have hdrop : req.entries.drop (0 + req.entries.length) = [] := by
    rw [Nat.zero_add]
    exact List.drop_length _
  have h45 : ae_stage4 M3 req t = some (M3, t, .ok (aeOkResult M3 req)) := by
    unfold ConsensusModule.ae_stage4
    rw [if_neg (by omega), hprev]
    dsimp only []
    rw [if_neg (by omega)]
    unfold ConsensusModule.ae_stage5
    rw [hwalk]
    dsimp only []
    rw [hdrop]
    exact ae_stage6_empty M3 req t _ hdrop hci
  unfold ConsensusModule.ae_stage3
  cases hent : req.entries with
  | nil => exact h45
  | cons first rest =>
      dsimp only []
      obtain ⟨hh1, hh2⟩ := hhead first (by rw [hent]; rfl)
      have hs2 : ae_entries_sorted (first :: rest) = true := by
        rw [← hent]
        exact hsorted
      rw [if_neg (by rw [not_or]; exact ⟨hh1, by omega⟩), if_neg (by rw [hs2]; simp)]
      exact h45

theorem redeliver_succeeds (n' : Nat) (m' : ConsensusModule)
    (req : AppendEntriesRequest) (tick' : Tick) (s : ServerFollowerState)
    (hst : m'.state = .Follower s)
    (hterm : req.term = m'.meta.current_term)
    (hprev : m'.log.termAt req.prev_log_index = some req.prev_log_term)
    (hall : ∀ e ∈ req.entries, m'.log.termAt e.index = some e.term)
    (hfirstidx : m'.log.first_index.getD 1 - 1 ≤ req.prev_log_index)
    (hsorted : ae_entries_sorted req.entries = true)
    (hhead : ∀ fst, req.entries.head? = some fst →
        ¬ fst.term < req.prev_log_term ∧ fst.index = req.prev_log_index + 1)
    (hci : min req.leader_commit req.prev_log_index ≤ m'.meta.commit_index) :
    ∃ mc' : MatchConstraintAE,
      m'.append_entries n' req tick' =
        some (m'.withState (.Follower { s with last_heartbeat := tick'.time, last_leader_id := some req.leader_id }), tick', .ok mc') ∧
      mc'.resp.success = true := by
  have h3 := ae_stage3_redeliver
    (m'.withState (.Follower { s with last_heartbeat := tick'.time, last_leader_id := some req.leader_id }))
    req tick' hprev hall hfirstidx hsorted hhead hci
  refine ⟨aeOkResult
    (m'.withState (.Follower { s with last_heartbeat := tick'.time, last_leader_id := some req.leader_id }))
    req, ?_, rfl⟩
  unfold ConsensusModule.append_entries ConsensusModule.observe_term
  rw [if_neg (by omega)]
  dsimp only []
  rw [if_neg (by simp [hst, ServerState.isCandidateB])]
  dsimp only []
  unfold ConsensusModule.ae_stage2
  rw [if_neg (by omega), if_neg (by omega), hst]
  dsimp only []
  exact h3

theorem Log.termAt_append_find (l' : Log) (l1 es : List LogEntry) (i : Nat)
    (hi : ¬ i = 0) (he : l'.entries = l1 ++ es)
    (h1 : l1.find? (fun e => e.index = i) = none)
    (e : LogEntry) (h2 : es.find? (fun x => x.index = i) = some e) :
    l'.termAt i = some e.term := by
  unfold Log.termAt Log.entryAt
  rw [if_neg hi, he, List.find?_append, h1, h2]
  rfl

theorem head?_take_pos (l : List LogEntry) (k : Nat) (hk : 0 < k) :
    (l.take k).head? = l.head? := by
  cases l with
  | nil => simp
  | cons a rest =>
      cases k with
      | zero => omega
      | succ j => simp

theorem append_entries_success_inv (n : Nat) (m : ConsensusModule)
    (req : AppendEntriesRequest) (tick : Tick) (m' : ConsensusModule) (t' : Tick)
    (mc : MatchConstraintAE) (hWF : m.log.WFb = true)
    (h : m.append_entries n req tick = some (m', t', .ok mc))
    (hsucc : mc.resp.success = true) :
    req.term = m'.meta.current_term ∧
    m'.log.termAt req.prev_log_index = some req.prev_log_term ∧
    (∀ e ∈ req.entries, m'.log.termAt e.index = some e.term) ∧
    m'.log.first_index.getD 1 - 1 ≤ req.prev_log_index ∧
    ae_entries_sorted req.entries = true ∧
    (∀ fst, req.entries.head? = some fst →
        ¬ fst.term < req.prev_log_term ∧ fst.index = req.prev_log_index + 1) ∧
    min req.leader_commit req.prev_log_index ≤ m'.meta.commit_index := by
  unfold ConsensusModule.append_entries at h
  split at h
  · exact Option.noConfusion h
  · rename_i m1 t1 hobs
    split at h
    · exact Option.noConfusion h
    · rename_i m2 t2 hdem
      obtain ⟨hterm, m3, hlog3, hmeta3, h3⟩ := ae_stage2_success_inv m2 req t2 m' t' mc h hsucc
      have hom := observe_term_mono n m req.term tick m1 t1 hobs
      have hdc : (m2.meta = m1.meta ∧ m2.log = m1.log ∧ m2.config = m1.config) ∨
          (req.term = m1.meta.current_term ∧
            m1.meta.current_term < m2.meta.current_term) := by
        split at hdem
        · rename_i hcond
          rcases become_follower_cases n m1 t1 m2 t2 hdem with hl | hr
          · exact Or.inl hl
          · exact Or.inr ⟨hcond.1, hr⟩
        · simp only [Option.some.injEq, Prod.mk.injEq] at hdem
          rw [← hdem.1]
          exact Or.inl ⟨rfl, rfl, rfl⟩
      have hoc : (m1.log = m.log ∧ m1.config = m.config ∧
            m1.meta.commit_index = m.meta.commit_index) ∨
          req.term < m1.meta.current_term := by
        unfold ConsensusModule.observe_term at hobs
        split at hobs
        · rcases become_follower_cases n _ _ m1 t1 hobs with hl | hr
          · refine Or.inl ⟨hl.2.1, hl.2.2, ?_⟩
            rw [hl.1]
          · exact Or.inr hr
        · simp only [Option.some.injEq, Prod.mk.injEq] at hobs
          rw [← hobs.1]
          exact Or.inl ⟨rfl, rfl, rfl⟩
      have h12 : m1.meta.current_term ≤ m2.meta.current_term := by
        rcases hdc with ⟨he2, -, -⟩ | ⟨-, hlt⟩
        · rw [he2]
        · omega
      have hlogm : m3.log = m.log := by
        rcases hoc with ⟨hL, -, -⟩ | hgt
        · rcases hdc with ⟨-, hL2, -⟩ | ⟨heq, hlt⟩
          · rw [hlog3, hL2, hL]
          · omega
        · omega
      have hWF3 : m3.log.WFb = true := by rw [hlogm]; exact hWF
      obtain ⟨h4, hsorted, hhead⟩ := ae_stage3_success_inv m3 req t2 m' t' mc h3
      obtain ⟨hprev3, hfidx3, h5⟩ := ae_stage4_success_inv m3 req t2 m' t' mc h4 hsucc
      obtain ⟨fn, m4, hwalk, h6, hnext⟩ := ae_stage5_success_inv m3 req t2 m' t' mc h5
      obtain ⟨m5, t5, hap, hlog', hcimin, -⟩ :=
        ae_stage6_success_inv m4 req t2 fn m' t' mc h6
      obtain ⟨-, hfnlen, hskip, hcases⟩ := ae_walk_ok_inv req.entries m3 0 fn m4 hwalk
      simp only [Nat.sub_zero] at hfnlen hskip hcases
      have happ := ae_append_entries_eq (req.entries.drop fn) m4 t2 m5 t5 hap
      obtain ⟨ha1, ha2, ha3, ha4, ha5⟩ := ae_stage3_frame m3 req t2 m' t' (.ok mc) h3
      have hct : req.term = m'.meta.current_term := by
        rw [ha1, hmeta3]
        exact hterm
      have hchainAll : Log.chainIdx (req.prev_log_index + 1) req.entries = true := by
        cases hE : req.entries with
        | nil => rfl
        | cons a r =>
            have hf : req.entries.head? = some a := by rw [hE]; rfl
            have hc := sorted_chainIdx req.entries hsorted a hf
            rw [(hhead a hf).2] at hc
            rw [hE] at hc
            exact hc
      have hidx : ∀ k (hk : k < req.entries.length),
          (req.entries.get ⟨k, hk⟩).index = req.prev_log_index + 1 + k :=
        Log.chainIdx_get req.entries (req.prev_log_index + 1) hchainAll
      have hT : ∀ i a, m4.log.termAt i = some a → m'.log.termAt i = some a := by
        intro i a hia
        rw [hlog']
        exact Log.termAt_of_entries_append m4.log m5.log _ happ i a hia
      have hentries' : m'.log.entries = m4.log.entries ++ req.entries.drop fn := by
        rw [hlog']
        exact happ
      have hdropchain : Log.chainIdx (req.prev_log_index + 1 + fn)
          (req.entries.drop fn) = true :=
        chainIdx_drop fn req.entries (req.prev_log_index + 1) hchainAll
      have hlnprev : req.prev_log_index ≤ aeLastNew req fn ∨
          req.entries.drop fn = [] := by
        cases hgl : (req.entries.drop fn).getLast? with
        | none =>
            refine Or.inr ?_
            cases hdd : req.entries.drop fn with
            | nil => rfl
            | cons x xs => rw [hdd] at hgl; simp at hgl
        | some lastE =>
            have hne : req.entries.drop fn ≠ [] := by
              intro hnil
              rw [hnil] at hgl
              simp at hgl
            have hmem : lastE ∈ req.entries.drop fn := by
              obtain ⟨hne2, heq⟩ := List.mem_getLast?_eq_getLast (l := req.entries.drop fn)
                (x := lastE) (by simp [hgl])
              exact heq ▸ List.getLast_mem hne2
            have hge := chainIdx_mem_index _ _ hdropchain lastE hmem
            have haln : aeLastNew req fn = lastE.index := by
              unfold aeLastNew
              rw [hgl]
            refine Or.inl ?_
            omega
      have hcify : min req.leader_commit req.prev_log_index ≤ m'.meta.commit_index := by
        rcases hlnprev with hle | hnil
        · omega
        · have haln : aeLastNew req fn = req.prev_log_index := by
            unfold aeLastNew
            rw [hnil]
            rfl
          omega
      have hskipT : ∀ j (hj : j < req.entries.length), j < fn →
          m3.log.termAt (req.entries.get ⟨j, hj⟩).index =
            some (req.entries.get ⟨j, hj⟩).term := by
        intro j hj hjfn
        refine hskip j hjfn (req.entries.get ⟨j, hj⟩) ?_
        rw [List.getElem?_eq_getElem hj, List.get_eq_getElem]
      have hfi_ne : ∀ a r, m3.log.entries = a :: r →
          m3.log.first_index.getD 1 = a.index := by
        intro a r hel
        unfold Log.first_index
        rw [hel]
        rfl
      have hfind2gen : ∀ (j : Nat) (hj : j < req.entries.length) (e : LogEntry),
          req.entries[j] = e → fn ≤ j →
          (req.entries.drop fn).find? (fun x => x.index = e.index) = some e := by
        intro j hj e hej hfnj
        have hejidx : e.index = req.prev_log_index + 1 + j := by
          have := hidx j hj
          rw [List.get_eq_getElem, hej] at this
          exact this
        have hjdl : j - fn < (req.entries.drop fn).length := by
          rw [List.length_drop]
          omega
        have hfe := Log.chainIdx_find?_eq (req.entries.drop fn)
          (req.prev_log_index + 1 + fn) hdropchain (j - fn) hjdl
        have hq : (req.entries.drop fn)[j - fn]? = some e := by
          rw [List.getElem?_drop]
          have harith2 : fn + (j - fn) = j := by omega
          rw [harith2, List.getElem?_eq_getElem hj, hej]
        have hgd : (req.entries.drop fn).get ⟨j - fn, hjdl⟩ = e := by
          have hq2 := List.getElem?_eq_getElem hjdl
          rw [hq] at hq2
          injection hq2 with hq2
          rw [List.get_eq_getElem]
          exact hq2.symm
        have harith : req.prev_log_index + 1 + fn + (j - fn) = e.index := by
          rw [hejidx]
          omega
        rw [harith, hgd] at hfe
        exact hfe
      rcases hcases with ⟨hfl, hm4⟩ | ⟨e0, rest0, hdrop0, hsub⟩
      · -- the walk consumed every entry: nothing was truncated or appended
        have hdnil : req.entries.drop fn = [] := by
          rw [hfl]
          exact List.drop_length _
        refine ⟨hct, ?_, ?_, ?_, hsorted, hhead, hcify⟩
        · refine hT _ _ ?_
          rw [hm4]
          exact hprev3
        · intro e he
          obtain ⟨j, hj, hej⟩ := List.mem_iff_getElem.mp he
          have hsk := hskipT j hj (by omega)
          rw [List.get_eq_getElem, hej] at hsk
          refine hT _ _ ?_
          rw [hm4]
          exact hsk
        · have heq : m'.log.first_index = m3.log.first_index := by
            unfold Log.first_index
            rw [hentries', hm4, hdnil, List.append_nil]
          rw [heq]
          exact hfidx3
      · -- the walk stopped at entry e0 = req.entries[fn]
        have hfnlt : fn < req.entries.length := by
          by_contra hge
          rw [List.drop_eq_nil_of_le (by omega)] at hdrop0
          exact List.noConfusion hdrop0
        have he0get : req.entries[fn] = e0 := by
          have hh := List.head?_drop req.entries fn
          rw [hdrop0] at hh
          simp only [List.head?_cons] at hh
          rw [List.getElem?_eq_getElem hfnlt] at hh
          injection hh with hh
          exact hh.symm
        have he0idx : e0.index = req.prev_log_index + 1 + fn := by
          have := hidx fn hfnlt
          rw [List.get_eq_getElem, he0get] at this
          exact this
        rcases hsub with ⟨hm4, hmiss⟩ | ⟨t0, hsome, hne0, hci0, hm4⟩
        · -- stopped because the entry was missing: the log was only appended to
          have hnextf := hnext e0 rest0 hdrop0
          rw [hm4] at hnextf
          have hfindnone : ∀ i : Nat, e0.index ≤ i →
              m3.log.entries.find? (fun x => x.index = i) = none := by
            intro i hge
            cases hEl : m3.log.entries with
            | nil => rfl
            | cons a r =>
                have hnel : m3.log.entries ≠ [] := by rw [hEl]; simp
                have hli := Log.WF_last_index m3.log hWF3 hnel
                have hstart := Log.WF_start_pos m3.log hWF3
                have hfn2 : m3.log.entryAt i = none := by
                  refine Log.WF_entryAt_none m3.log hWF3 i (Or.inr ?_)
                  rw [hli] at hnextf
                  simp only [Option.getD_some] at hnextf
                  have hlen : 0 < m3.log.entries.length := by rw [hEl]; simp
                  omega
                unfold Log.entryAt at hfn2
                rw [← hEl]
                exact hfn2
          refine ⟨hct, ?_, ?_, ?_, hsorted, hhead, hcify⟩
          · refine hT _ _ ?_
            rw [hm4]
            exact hprev3
          · intro e he
            obtain ⟨j, hj, hej⟩ := List.mem_iff_getElem.mp he
            by_cases hjfn : j < fn
            · have hsk := hskipT j hj hjfn
              rw [List.get_eq_getElem, hej] at hsk
              refine hT _ _ ?_
              rw [hm4]
              exact hsk
            · have hejidx : e.index = req.prev_log_index + 1 + j := by
                have := hidx j hj
                rw [List.get_eq_getElem, hej] at this
                exact this
              refine Log.termAt_append_find m'.log m4.log.entries _ e.index
                (by omega) hentries' ?_ e (hfind2gen j hj e hej (by omega))
              rw [hm4]
              exact hfindnone e.index (by omega)
          · cases hEl : m3.log.entries with
            | nil =>
                have hlast0 : m3.log.last_index = none := by
                  unfold Log.last_index
                  rw [hEl]
                  rfl
                rw [hlast0] at hnextf
                simp only [Option.getD_none] at hnextf
                have hfi : m'.log.first_index = some e0.index := by
                  unfold Log.first_index
                  rw [hentries', hm4, hEl, hdrop0]
                  rfl
                rw [hfi]
                simp only [Option.getD_some]
                omega
            | cons a r =>
                have hfi : m'.log.first_index = some a.index := by
                  unfold Log.first_index
                  rw [hentries', hm4, hEl]
                  rfl
                have hfm3 := hfi_ne a r hEl
                rw [hfi]
                simp only [Option.getD_some]
                omega
        · -- stopped at a conflicting entry: suffix truncated, then re-appended
          have hcut0 : ¬ e0.index = 0 := by omega
          have hnel : m3.log.entries ≠ [] := by
            intro hnil
            unfold Log.termAt Log.entryAt at hsome
            rw [if_neg hcut0, hnil] at hsome
            simp at hsome
          have hm4log : m4.log = m3.log.truncate_suffix e0.index := by rw [hm4]
          have htake := chain_filter_take m3.log.entries m3.log.startIdx e0.index
            (Log.WF_chain m3.log hWF3)
          have hstartle : m3.log.startIdx ≤ e0.index := by
            have hiss : (m3.log.termAt e0.index).isSome = true := by
              rw [hsome]
              rfl
            rcases (Log.WF_termAt_isSome_iff m3.log hWF3 e0.index).1 hiss with hz | hs1
            · omega
            · exact hs1.1
          refine ⟨hct, ?_, ?_, ?_, hsorted, hhead, hcify⟩
          · refine hT _ _ ?_
            rw [hm4log, Log.termAt_truncate_of_lt m3.log _ _ (by omega)]
            exact hprev3
          · intro e he
            obtain ⟨j, hj, hej⟩ := List.mem_iff_getElem.mp he
            by_cases hjfn : j < fn
            · have hsk := hskipT j hj hjfn
              rw [List.get_eq_getElem, hej] at hsk
              have hejidx : e.index = req.prev_log_index + 1 + j := by
                have := hidx j hj
                rw [List.get_eq_getElem, hej] at this
                exact this
              refine hT _ _ ?_
              rw [hm4log, Log.termAt_truncate_of_lt m3.log _ _ (by omega)]
              exact hsk
            · have hejidx : e.index = req.prev_log_index + 1 + j := by
                have := hidx j hj
                rw [List.get_eq_getElem, hej] at this
                exact this
              refine Log.termAt_append_find m'.log m4.log.entries _ e.index
                (by omega) hentries' ?_ e (hfind2gen j hj e hej (by omega))
              rw [hm4log]
              refine List.find?_eq_none.mpr ?_
              intro x hx
              simp only [Log.truncate_suffix, List.mem_filter, decide_eq_true_eq] at hx
              simp only [decide_eq_true_eq]
              omega
          · by_cases hsc : m3.log.startIdx < e0.index
            · obtain ⟨a, r, hEl⟩ : ∃ a r, m3.log.entries = a :: r := by
                cases hEl : m3.log.entries with
                | nil => exact absurd hEl hnel
                | cons a r => exact ⟨a, r, rfl⟩
              have hfi : m'.log.first_index = some a.index := by
                unfold Log.first_index
                rw [hentries', hm4log]
                simp only [Log.truncate_suffix]
                rw [htake, List.head?_append, head?_take_pos _ _ (by omega), hEl]
                rfl
              have hfm3 := hfi_ne a r hEl
              rw [hfi]
              simp only [Option.getD_some]
              omega
            · have htz : e0.index - m3.log.startIdx = 0 := by omega
              have hfi : m'.log.first_index = some e0.index := by
                unfold Log.first_index
                rw [hentries', hm4log]
                simp only [Log.truncate_suffix]
                rw [htake, htz, List.take_zero, List.nil_append, hdrop0]
                rfl
              obtain ⟨a, r, hEl⟩ : ∃ a r, m3.log.entries = a :: r := by
                cases hEl : m3.log.entries with
                | nil => exact absurd hEl hnel
                | cons a r => exact ⟨a, r, rfl⟩
              have hfm3 := hfi_ne a r hEl
              have hsa : m3.log.startIdx = a.index := by
                unfold Log.startIdx
                rw [hEl]
                rfl
              rw [hfi]
              simp only [Option.getD_some]
              omega

/-- C7: an `append_entries` request that a well-formed module accepted with a
success response is idempotent: re-delivering the identical request to the
resulting module (still a follower) changes nothing in the log -- no entry is
truncated or appended -- and yields a success response again. -/
theorem C7_append_entries_idempotent (n n' : Nat) (m : ConsensusModule)
    (req : AppendEntriesRequest) (tick tick' : Tick) (m' : ConsensusModule)
    (t' : Tick) (mc : MatchConstraintAE) (s : ServerFollowerState)
    (hWF : m.log.WFb = true)
    (h : m.append_entries n req tick = some (m', t', .ok mc))
    (hsucc : mc.resp.success = true)
    (hst : m'.state = .Follower s) :
    ∃ (m'' : ConsensusModule) (mc' : MatchConstraintAE),
      m'.append_entries n' req tick' = some (m'', tick', .ok mc') ∧
      mc'.resp.success = true ∧ m''.log = m'.log := by
  obtain ⟨hterm, hprev, hall, hfidx, hsorted, hhead, hci⟩ :=
    append_entries_success_inv n m req tick m' t' mc hWF h hsucc
  obtain ⟨mc', heq, hs⟩ := redeliver_succeeds n' m' req tick' s hst hterm hprev hall
    hfidx hsorted hhead hci
  exact ⟨_, mc', heq, hs, rfl⟩

/-- Witness for C7: follower 1 with log `[(1,1)]` accepts `(2,1)` from leader
2, then accepts the identical re-delivery without touching its log. -/
theorem C7_append_entries_idempotent_witness :
    ∃ (m'' : ConsensusModule) (mc' : MatchConstraintAE),
      c7first.1.append_entries 6 c7req tick0 = some (m'', tick0, .ok mc') ∧
      mc'.resp.success = true ∧ m''.log = c7first.1.log :=
  C7_append_entries_idempotent 6 6 mPending c7req tick0 tick0 c7first.1 c7first.2.1
    c7mc c7s (by decide) (by decide) (by decide) (by decide)

end Raft
